import Mathlib

/-!
Verification development for the 3L-CVRP optimization kernel: a shallow
embedding of the geometry kernel, sequence-dependent 3D packer, fleet
manager, ALNS operators and driver, data model and loader, with theorems
settling the specification claims.

Modelling conventions:
* Python floats are embedded as exact rationals (`ℚ`); the code's float
  infinity is embedded as `⊤ : WithTop ℚ` where a value can be infinite.
* Python ints are embedded as `ℚ` where they mix with float arithmetic
  (coordinates, side lengths) and as `ℕ`/`ℤ` where they index.
* Python `set` iteration order is unspecified; the embedding determinizes
  it with `List.dedup`.  No claim depends on tie-breaking among equal
  scores, which is the only place this order is observable.
* `hashlib.md5` in `Route.signature` is embedded by its pre-image (the
  vehicle type code together with the ordered node ids), i.e. the digest
  is assumed collision-free.
-/

attribute [local semireducible] Rat.add Rat.mul Rat.sub Rat.inv

namespace CVRP3L

/-- Tolerance constant `EPS = 1e-4` used throughout the geometry code. -/
def EPS : ℚ := 1 / 10000

/-! ## Configuration (src/config.py) -/

namespace Config

/-- `Config.SUPPORT_RATIO = 1.0` (source name kept up to case). -/
def supportRatio : ℚ := 1

/-- `Config.GRID_PRECISION = 1` (mm per height-map cell). -/
def GRID_PRECISION : ℚ := 1

/-- `Config.ALPHA = 100000.0` (load-rate weight). -/
def ALPHA : ℚ := 100000

/-- `Config.BETA = 1.0` (distance weight). -/
def BETA : ℚ := 1

/-- `Config.START_TEMP = 100.0`. -/
def START_TEMP : ℚ := 100

/-- `Config.COOLING_RATE = 0.9995`. -/
def COOLING_RATE : ℚ := 9995 / 10000

/-- `Config.ENABLE_CACHE = True`. -/
def ENABLE_CACHE : Bool := true

end Config

/-! ## Data model (src/data_model.py) -/

/-- `Item`: immutable cargo item with integer side lengths and a mass. -/
structure Item where
  id : String
  l : ℚ
  w : ℚ
  h : ℚ
  weight : ℚ
deriving DecidableEq

/-- The up-to-six distinct axis-aligned orientations of an item
(`Item.__post_init__`: the six permutations collected into a set; embedded
with `List.dedup` as the determinization of the Python set). -/
def Item.orientations (i : Item) : List (ℚ × ℚ × ℚ) :=
  [(i.l, i.w, i.h), (i.l, i.h, i.w), (i.w, i.l, i.h),
   (i.w, i.h, i.l), (i.h, i.l, i.w), (i.h, i.w, i.l)].dedup

/-- `Node`: a stop (or the virtual depot, id 0) with its items. -/
structure Node where
  id : ℕ
  is_bonded : Bool
  x : ℚ
  y : ℚ
  items : List Item
deriving DecidableEq

/-- `VehicleType`: a vehicle catalog entry. -/
structure VehicleType where
  type_id : String
  L : ℚ
  W : ℚ
  H : ℚ
  max_weight : ℚ
deriving DecidableEq

/-- Derived interior volume (`VehicleType.__post_init__`). -/
def VehicleType.volume (v : VehicleType) : ℚ := v.L * v.W * v.H

/-- `PackedItem`: a placement of an item at corner (x,y,z) with oriented
side lengths (lx,ly,lz). -/
structure PackedItem where
  item : Item
  x : ℚ
  y : ℚ
  z : ℚ
  lx : ℚ
  ly : ℚ
  lz : ℚ
deriving DecidableEq

/-! ## Geometry kernel (src/geometry_kernel.py) -/

/-- `HeightMap`: discretized top-surface record over the cargo floor.
The numpy array is embedded as a total function on `ℤ × ℤ`; the code
only ever reads indices inside `[0, gx) × [0, gy)`. -/
structure HeightMap where
  precision : ℚ
  gx : ℤ
  gy : ℤ
  map : ℤ → ℤ → ℚ

/-- `HeightMap.__init__`: grid of `⌈L/P⌉ × ⌈W/P⌉` cells, all heights 0. -/
def HeightMap.init (L W : ℚ) : HeightMap :=
  { precision := Config.GRID_PRECISION
    gx := ⌈L / Config.GRID_PRECISION⌉
    gy := ⌈W / Config.GRID_PRECISION⌉
    map := fun _ _ => 0 }

/-- `HeightMap._get_grid_range`: floor the start corner, ceil the end
corner, so every touched cell is covered. -/
def gridRange (p x y l w : ℚ) : ℤ × ℤ × ℤ × ℤ :=
  (⌊x / p⌋, ⌊y / p⌋, ⌈(x + l) / p⌉, ⌈(y + w) / p⌉)

/-- The list of grid cells of the rectangle `[ix, ixe) × [iy, iye)`. -/
def cellList (ix iy ixe iye : ℤ) : List (ℤ × ℤ) :=
  (List.range (ixe - ix).toNat).flatMap fun (i : ℕ) =>
    (List.range (iye - iy).toNat).map fun (j : ℕ) =>
      (ix + (i : ℤ), iy + (j : ℤ))

/-- The non-empty-region part of `HeightMap.check_support`
(`region = c :: cs`): for `supportRatio ≥ 0.99` a min/max test that all
cell heights lie within `EPS` of `z`, otherwise an area-ratio count plus
the explicit four-corner mask test. -/
def regionSupport (hm : HeightMap) (ix iy ixe iye : ℤ) (z : ℚ)
    (c : ℤ × ℤ) (cs : List (ℤ × ℤ)) : Bool :=
  let f : ℤ × ℤ → ℚ := fun ij => hm.map ij.1 ij.2
  if Config.supportRatio ≥ 99 / 100 then
    let rmin := (cs.map f).foldl min (f c)
    if rmin < z - EPS then false
    else
      let rmax := (cs.map f).foldl max (f c)
      if rmax > z + EPS then false else true
  else
    let cells := c :: cs
    let supported : ℤ × ℤ → Bool := fun ij => |f ij - z| < EPS
    let ratio : ℚ := (cells.countP supported : ℚ) / (cells.length : ℚ)
    if ratio < Config.supportRatio then false
    else if supported (ix, iy) && supported (ix, iye - 1) &&
        supported (ixe - 1, iy) && supported (ixe - 1, iye - 1) then true
    else false

/-- `HeightMap.check_support`: support test for footprint `(x,y,l,w)` at
height `z`.  Mirrors the source: bounds guard, four-corner pre-check,
floor short-circuit, empty-region rejection, then the region test
(`regionSupport`). -/
def HeightMap.check_support (hm : HeightMap) (x y l w z : ℚ) : Bool :=
  let r := gridRange hm.precision x y l w
  let ix := r.1; let iy := r.2.1; let ixe := r.2.2.1; let iye := r.2.2.2
  if ixe > hm.gx ∨ iye > hm.gy then false
  else if z > EPS ∧ (hm.map ix iy < z - EPS ∨ hm.map (ixe - 1) (iye - 1) < z - EPS ∨
      hm.map ix (iye - 1) < z - EPS ∨ hm.map (ixe - 1) iy < z - EPS) then false
  else if z < EPS then true
  else
    match cellList ix iy ixe iye with
    | [] => false
    | c :: cs => regionSupport hm ix iy ixe iye z c cs

/-- `HeightMap.update`: overwrite the covered cells with `z_top`,
clamping the end indices to the grid. -/
def HeightMap.update (hm : HeightMap) (x y l w ztop : ℚ) : HeightMap :=
  let r := gridRange hm.precision x y l w
  let ix := r.1; let iy := r.2.1
  let ixe := min r.2.2.1 hm.gx; let iye := min r.2.2.2 hm.gy
  { hm with map := fun i j =>
      if ix ≤ i ∧ i < ixe ∧ iy ≤ j ∧ j < iye then ztop else hm.map i j }

/-- `check_aabb_collision`: scalar loop used by the packer; a placed box
collides iff the boxes interpenetrate by more than `EPS` on all axes. -/
def check_aabb_collision (nb : ℚ × ℚ × ℚ × ℚ × ℚ × ℚ)
    (placed : List PackedItem) : Bool :=
  let nx := nb.1; let ny := nb.2.1; let nz := nb.2.2.1
  let nl := nb.2.2.2.1; let nw := nb.2.2.2.2.1; let nh := nb.2.2.2.2.2
  placed.any fun p =>
    decide (nx < p.x + p.lx - EPS) && decide (nx + nl > p.x + EPS) &&
    decide (ny < p.y + p.ly - EPS) && decide (ny + nw > p.y + EPS) &&
    decide (nz < p.z + p.lz - EPS) && decide (nz + nh > p.z + EPS)

/-- Axis-aligned box `(x1,y1,z1,x2,y2,z2)` as used by the batched
collision kernel. -/
structure Aabb where
  x1 : ℚ
  y1 : ℚ
  z1 : ℚ
  x2 : ℚ
  y2 : ℚ
  z2 : ℚ
deriving DecidableEq

/-- `check_aabb_collision_vectorized`: the numpy-vectorized test.  The
matrix of placed boxes is embedded as a list; `count` selects the valid
prefix.  The per-axis masks and the two early exits mirror the source. -/
def check_aabb_collision_vectorized (nb : Aabb) (mat : List Aabb)
    (count : ℕ) : Bool :=
  if count = 0 then false
  else
    let valid := mat.take count
    let xcol : Aabb → Bool := fun p =>
      decide (nb.x2 > p.x1 + EPS) && decide (nb.x1 < p.x2 - EPS)
    if ¬ valid.any xcol then false
    else
      let ycol : Aabb → Bool := fun p =>
        decide (nb.y2 > p.y1 + EPS) && decide (nb.y1 < p.y2 - EPS)
      if ¬ valid.any (fun p => xcol p && ycol p) then false
      else
        let zcol : Aabb → Bool := fun p =>
          decide (nb.z2 > p.z1 + EPS) && decide (nb.z1 < p.z2 - EPS)
        valid.any fun p => xcol p && ycol p && zcol p

/-- `check_aabb_collision_fast`, list branch: the scalar reference loop
(the tuple branch merely dispatches to the vectorized kernel). -/
def check_aabb_collision_fast (nb : Aabb) (placed : List Aabb) : Bool :=
  let snx1 := nb.x1 + EPS; let sny1 := nb.y1 + EPS; let snz1 := nb.z1 + EPS
  let snx2 := nb.x2 - EPS; let sny2 := nb.y2 - EPS; let snz2 := nb.z2 - EPS
  placed.any fun p =>
    !(decide (snx2 ≤ p.x1) || decide (snx1 ≥ p.x2)) &&
    !(decide (sny2 ≤ p.y1) || decide (sny1 ≥ p.y2)) &&
    !(decide (snz2 ≤ p.z1) || decide (snz1 ≥ p.z2))

/-! ## Sequence-dependent packer (src/packer_3d.py) -/

/-- Stable insertion into a list sorted by the boolean relation `le`. -/
def insOrd {α : Type} (le : α → α → Bool) (a : α) : List α → List α
  | [] => [a]
  | b :: bs => if le a b then a :: b :: bs else b :: insOrd le a bs

/-- Stable sort by the boolean relation `le` (Python's sort is stable;
for the total preorders used here any stable sort yields the same
list). -/
def stableSort {α : Type} (le : α → α → Bool) : List α → List α
  | [] => []
  | a :: as => insOrd le a (stableSort le as)

/-- Within a stop, items are packed largest volume first
(`sorted(node.items, key=lambda i: i.l*i.w*i.h, reverse=True)`). -/
def sortItemsDesc (items : List Item) : List Item :=
  stableSort (fun a b => decide (b.l * b.w * b.h ≤ a.l * a.w * a.h)) items

/-- An extreme point `(x, y, z)`. -/
abbrev Point := ℚ × ℚ × ℚ

/-- The packer's feasibility test for placing orientation `rot` of an
item at extreme point `ep`: vehicle boundary, AABB collision against
the already placed items, and (off the floor) height-map support. -/
def candFeasible (veh : VehicleType) (placed : List PackedItem)
    (hm : HeightMap) (ep : Point) (rot : ℚ × ℚ × ℚ) : Bool :=
  let x := ep.1; let y := ep.2.1; let z := ep.2.2
  let l := rot.1; let w := rot.2.1; let h := rot.2.2
  if x + l > veh.L ∨ y + w > veh.W ∨ z + h > veh.H then false
  else if check_aabb_collision (x, y, z, l, w, h) placed then false
  else if z > 0 ∧ ¬ hm.check_support x y l w z then false
  else true

/-- The corner-point score `ep[0]*1000 + ep[2]*100 + ep[1]`. -/
def candScore (ep : Point) : ℚ := ep.1 * 1000 + ep.2.2 * 100 + ep.2.1

/-- The incumbent score of the selection loop (`⊤` = Python's initial
`best_score = inf`). -/
def stScore (b : Option ((Point × (ℚ × ℚ × ℚ)) × ℚ)) : WithTop ℚ :=
  match b with
  | none => ⊤
  | some (_, s) => (s : WithTop ℚ)

/-- One step of the placement-selection loop: if the candidate is
feasible and strictly beats the incumbent score (initially the float
infinity `⊤`), adopt it. -/
def placeStep (veh : VehicleType) (placed : List PackedItem)
    (hm : HeightMap) (ep : Point)
    (b : Option ((Point × (ℚ × ℚ × ℚ)) × ℚ)) (rot : ℚ × ℚ × ℚ) :
    Option ((Point × (ℚ × ℚ × ℚ)) × ℚ) :=
  if candFeasible veh placed hm ep rot ∧
      (candScore ep : WithTop ℚ) < stScore b then
    some ((ep, rot), candScore ep)
  else b

/-- The placement-selection loop of `SequenceDependentPacker.pack`:
iterate extreme points (outer) and orientations (inner), keep the
feasible candidate of strictly smallest score, first seen wins ties. -/
def bestPlacement (veh : VehicleType) (placed : List PackedItem)
    (hm : HeightMap) (eps : List Point) (rots : List (ℚ × ℚ × ℚ)) :
    Option (Point × (ℚ × ℚ × ℚ)) :=
  (eps.foldl (fun best ep =>
    rots.foldl (placeStep veh placed hm ep) best) none).map Prod.fst

/-- `SequenceDependentPacker._update_extreme_points`: drop points inside
the `EPS`-shrunk placed box, add the three new corner points, dedup
(the Python `set` round-trip, determinized by `List.dedup`). -/
def updateExtremePoints (eps : List Point) (x y z l w h : ℚ) :
    List Point :=
  let kept := eps.filter fun p =>
    !(decide (p.1 ≥ x - EPS) && decide (p.1 < x + l - EPS) &&
      decide (p.2.1 ≥ y - EPS) && decide (p.2.1 < y + w - EPS) &&
      decide (p.2.2 ≥ z - EPS) && decide (p.2.2 < z + h - EPS))
  (kept ++ [(x + l, y, z), (x, y + w, z), (x, y, z + h)]).dedup

/-- The packer's running state: extreme points, placements, height map. -/
structure PackState where
  eps : List Point
  placed : List PackedItem
  hm : HeightMap

/-- Place one item: select the best feasible (extreme point,
orientation), append the placement, update the height map over the
footprint to `z + h`, refresh and re-sort the extreme points by x. -/
def placeItem (veh : VehicleType) (st : PackState) (item : Item) :
    Option PackState :=
  match bestPlacement veh st.placed st.hm st.eps item.orientations with
  | none => none
  | some (ep, rot) =>
    let x := ep.1; let y := ep.2.1; let z := ep.2.2
    let l := rot.1; let w := rot.2.1; let h := rot.2.2
    some { eps := stableSort (fun p q => decide (p.1 ≤ q.1))
             (updateExtremePoints st.eps x y z l w h)
           placed := st.placed ++ [⟨item, x, y, z, l, w, h⟩]
           hm := st.hm.update x y l w (z + h) }

/-- Place a list of items in order, failing as soon as one has no
feasible placement. -/
def placeItems (veh : VehicleType) : PackState → List Item →
    Option PackState
  | st, [] => some st
  | st, i :: is =>
    match placeItem veh st i with
    | none => none
    | some st' => placeItems veh st' is

/-- The route's items in packing order: depots (id 0) skipped, each
stop's items sorted by decreasing volume, stops in sequence order. -/
def routeItems (seq : List Node) : List Item :=
  (seq.filter fun n => n.id ≠ 0).flatMap fun n => sortItemsDesc n.items

/-- `SequenceDependentPacker._calc_load_rate`. -/
def calcLoadRate (items : List PackedItem) (veh : VehicleType) : ℚ :=
  if items.isEmpty then 0
  else
    let tv := (items.map fun i => i.lx * i.ly * i.lz).sum
    let vv := veh.L * veh.W * veh.H
    if vv > 0 then tv / vv else 0

/-- The cache-free core of `SequenceDependentPacker.pack`: simulate the
whole packing of a (vehicle, sequence) pair; `none` means infeasible. -/
def packCompute (veh : VehicleType) (seq : List Node) :
    Option (List PackedItem × ℚ) :=
  match placeItems veh ⟨[(0, 0, 0)], [], HeightMap.init veh.L veh.W⟩
      (routeItems seq) with
  | none => none
  | some st => some (st.placed, calcLoadRate st.placed veh)

/-! ## Route, cache and the cached packer entry point -/

/-- `Route`: vehicle, node sequence and the result fields the packer
writes back (`packed_items`, `load_rate`; `dist_cost` is set by the
fleet manager). -/
structure Route where
  vehicle : VehicleType
  sequence : List Node
  packed_items : List PackedItem := []
  dist_cost : ℚ := 0
  load_rate : ℚ := 0
deriving DecidableEq

/-- `Route.signature`: the pre-image of the md5 digest — vehicle type
code plus the ordered node ids (the digest is assumed collision-free). -/
def Route.signature (r : Route) : String × List ℕ :=
  (r.vehicle.type_id, r.sequence.map (·.id))

/-- A packer cache entry: `{feasible: false}` or
`{feasible: true, items, rate}`. -/
structure CacheEntry where
  feasible : Bool
  items : List PackedItem := []
  rate : ℚ := 0
deriving DecidableEq

/-- The packer cache, keyed by route signature.  The Python dict is
embedded as an association list where insertion prepends and lookup
takes the most recent binding. -/
abbrev PackCache := List ((String × List ℕ) × CacheEntry)

/-- Cache lookup. -/
def cacheFind (c : PackCache) (s : String × List ℕ) : Option CacheEntry :=
  (c.find? fun kv => decide (kv.1 = s)).map (·.2)

/-- `SequenceDependentPacker.pack`: consult the cache when enabled (the
write happens on every terminal outcome regardless of the flag, as in
the source); on success write placements and load rate onto the route.
Returns (feasibility, updated route, updated cache). -/
def pack (enableCache : Bool) (c : PackCache) (r : Route) :
    Bool × Route × PackCache :=
  match (if enableCache then cacheFind c r.signature else none) with
  | some res =>
    if res.feasible then
      (true, { r with packed_items := res.items, load_rate := res.rate }, c)
    else (false, r, c)
  | none =>
    match packCompute r.vehicle r.sequence with
    | none => (false, r, (r.signature, ⟨false, [], 0⟩) :: c)
    | some (items, rate) =>
      (true, { r with packed_items := items, load_rate := rate },
        (r.signature, ⟨true, items, rate⟩) :: c)

/-- A sequence of `pack` calls threading the cache, returning each
call's verdict and resulting route. -/
def packRun (enableCache : Bool) : PackCache → List Route →
    List (Bool × Route)
  | _, [] => []
  | c, r :: rs =>
    let res := pack enableCache c r
    (res.1, res.2.1) :: packRun enableCache res.2.2 rs

/-! ## Fleet manager (src/fleet_manager.py) -/

/-- `FleetManager` state: the raw vehicle catalog and the loader's
distance matrix.  The numpy matrix is total on the node ids produced by
the loader, so the source's `except`-fallback (Euclidean distance from
the dummy coordinates) is unreachable there and the lookup is embedded
as a total function. -/
structure FleetManager where
  vehicle_types : List VehicleType
  dist_matrix : ℕ → ℕ → ℚ

/-- The catalog sorted by ascending interior volume
(`FleetManager.__init__`). -/
def FleetManager.sortedTypes (fm : FleetManager) : List VehicleType :=
  stableSort (fun a b => decide (a.volume ≤ b.volume)) fm.vehicle_types

/-- Path distance of a sequence: sum of consecutive matrix lookups. -/
def pathDist (fm : FleetManager) (seq : List Node) : ℚ :=
  ((seq.zip seq.tail).map fun uv => fm.dist_matrix uv.1.id uv.2.id).sum

/-- Aggregate item weight of a sequence. -/
def seqWeight (seq : List Node) : ℚ :=
  (seq.map fun n => (n.items.map (·.weight)).sum).sum

/-- The vehicle-iteration loop of `find_best_vehicle` over a (sorted)
catalog: skip a vehicle if the aggregate weight exceeds its payload or
the packer fails, otherwise return its route. -/
def findVehicleGo (seq : List Node) (dist : ℚ) :
    List VehicleType → Option Route
  | [] => none
  | v :: vs =>
    if seqWeight seq > v.max_weight then findVehicleGo seq dist vs
    else
      match packCompute v seq with
      | none => findVehicleGo seq dist vs
      | some (items, rate) =>
        some { vehicle := v, sequence := seq, packed_items := items,
               dist_cost := dist, load_rate := rate }

/-- `FleetManager.find_best_vehicle`: smallest-volume-first search for a
vehicle that passes the weight prune and the packer.  The live packer
cache is elided: by cache coherence the cached packer agrees with
`packCompute` on every call. -/
def find_best_vehicle (fm : FleetManager) (seq : List Node) :
    Option Route :=
  findVehicleGo seq (pathDist fm seq) fm.sortedTypes

/-! ## Solution and objective (src/data_model.py, src/alns_solver.py) -/

/-- `Solution`: start/end depots and the route collection. -/
structure Solution where
  start_node : Node
  end_node : Node
  routes : List Route
deriving DecidableEq

/-- `Solution.total_cost`: `0.0` for an empty route collection,
otherwise `ALPHA·(1 − mean load rate) + BETA·total distance`. -/
def Solution.total_cost (sol : Solution) : ℚ :=
  if sol.routes.isEmpty then 0
  else
    Config.ALPHA *
        (1 - (sol.routes.map (·.load_rate)).sum / (sol.routes.length : ℚ)) +
      Config.BETA * (sol.routes.map (·.dist_cost)).sum

/-- `ALNSSolver._objective`: float infinity (`⊤`) for an empty route
collection, otherwise the same weighted sum. -/
def objective (sol : Solution) : WithTop ℚ :=
  if sol.routes.isEmpty then ⊤
  else
    ((Config.ALPHA *
        (1 - (sol.routes.map (·.load_rate)).sum / (sol.routes.length : ℚ)) +
      Config.BETA * (sol.routes.map (·.dist_cost)).sum : ℚ) : WithTop ℚ)

/-! ## ALNS operators (src/alns_operators.py) -/

/-- `ALNSOperators._calculate_weighted_cost`. -/
def weightedCost (r : Route) : ℚ :=
  Config.ALPHA * (1 - r.load_rate) + Config.BETA * r.dist_cost

/-- `ALNSOperators._check_capacity_feasible`: 1D weight and volume
prune against the largest catalog vehicle.  (On an empty catalog the
source raises `IndexError`; that path is unreachable for loaded
instances and is embedded as `false`.) -/
def checkCapacityFeasible (fm : FleetManager) (route : Route)
    (node : Node) : Bool :=
  match fm.sortedTypes.getLast? with
  | none => false
  | some maxV =>
    let cw := seqWeight route.sequence
    let nw := (node.items.map (·.weight)).sum
    if cw + nw > maxV.max_weight then false
    else
      let cv := (route.sequence.map fun n =>
        (n.items.map fun i => i.l * i.w * i.h).sum).sum
      let nv := (node.items.map fun i => i.l * i.w * i.h).sum
      if cv + nv > maxV.volume then false else true

/-- The smallest admissible insertion index for a non-bonded node:
2 when the route already has a bonded customer at position 1, else 1. -/
def admissibleStart (route : Route) : ℕ :=
  if route.sequence.length > 1 &&
      (((route.sequence.get? 1).map (·.is_bonded)).getD false) then 2
  else 1

/-- The admissible insertion indices of a node into a route: `[1]` for a
bonded node, `range(start, len(sequence))` otherwise. -/
def admissibleIndices (route : Route) (node : Node) : List ℕ :=
  if node.is_bonded then [1]
  else List.range' (admissibleStart route)
    (route.sequence.length - admissibleStart route)

/-- `seq[:i] + [node] + seq[i:]`. -/
def insertAt (seq : List Node) (i : ℕ) (node : Node) : List Node :=
  seq.take i ++ [node] ++ seq.drop i

/-- The running best insertion: `none` is the float-infinity initial
`best_cost_inc`. -/
def bestCost (b : Option (ℚ × ℤ × Route)) : WithTop ℚ :=
  match b with
  | none => ⊤
  | some (c, _, _) => (c : WithTop ℚ)

/-- The scan over existing routes in `_insert_node_greedy`: for each
(index, route) passing the capacity prune and each admissible insertion
index, keep the move of strictly smallest cost increment. -/
def greedyScanRoutes (fm : FleetManager) (sol : Solution) (node : Node) :
    Option (ℚ × ℤ × Route) :=
  sol.routes.enum.foldl (fun best rir =>
    if ¬ checkCapacityFeasible fm rir.2 node then best
    else
      (admissibleIndices rir.2 node).foldl (fun b i =>
        match find_best_vehicle fm (insertAt rir.2.sequence i node) with
        | none => b
        | some newRoute =>
          if ((weightedCost newRoute - weightedCost rir.2 : ℚ) : WithTop ℚ) <
              bestCost b then
            some (weightedCost newRoute - weightedCost rir.2, (rir.1 : ℤ),
              newRoute)
          else b) best) (none : Option (ℚ × ℤ × Route))

/-- The best move of `_insert_node_greedy`: the route scan's best,
possibly beaten by opening the new route `[start, node, end]` (route
index `-1`). -/
def greedyBest (fm : FleetManager) (sol : Solution) (node : Node) :
    Option (ℚ × ℤ × Route) :=
  match find_best_vehicle fm [sol.start_node, node, sol.end_node] with
  | none => greedyScanRoutes fm sol node
  | some nr =>
    if ((weightedCost nr : ℚ) : WithTop ℚ) <
        bestCost (greedyScanRoutes fm sol node) then
      some (weightedCost nr, (-1 : ℤ), nr)
    else greedyScanRoutes fm sol node

/-- `ALNSOperators._insert_node_greedy`: apply the strictly cheapest
admissible move — replace the chosen route, or append the new one. -/
def insertNodeGreedy (fm : FleetManager) (sol : Solution) (node : Node) :
    Solution :=
  match greedyBest fm sol node with
  | none => sol
  | some (_, ri, resRoute) =>
    if ri = -1 then { sol with routes := sol.routes ++ [resRoute] }
    else { sol with routes := sol.routes.set ri.toNat resRoute }

/-- A route's bonded invariant as a boolean: every bonded node of the
sequence sits at position 1. -/
def routeBondedOK (r : Route) : Bool :=
  r.sequence.enum.all fun p => !p.2.is_bonded || decide (p.1 = 1)

/-! ## ALNS driver (src/alns_solver.py) -/

/-- The driver's mutable state: current and best solutions, the repair
operator scores, the temperature. -/
structure AlnsState where
  curr : Solution
  best : Solution
  scores : List ℚ
  temp : ℚ

/-- One iteration's externally produced data: the index of the selected
repair operator, the repaired solution, and the outcome of the
simulated-annealing draw `rand() < exp(-delta/T)` in the case where that
comparison is between finite floats. -/
structure AlnsInput where
  opIdx : ℕ
  newSol : Solution
  sa : Bool

/-- `ALNSSolver._update_score`: add a reward to the selected repair
operator's score. -/
def bumpScore (scores : List ℚ) (i : ℕ) (reward : ℚ) : List ℚ :=
  scores.set i (scores.getD i 0 + reward)

/-- One iteration of `ALNSSolver.solve` after the destroy/repair calls.
Acceptance embeds `delta < 0 or rand() < exp(-delta/T)`:
over the float values involved, `delta < 0` holds iff
`objective new < objective curr` (including the `inf - inf = nan` and
`delta = +inf` cases, where both sides are false), and the `exp` branch
can only fire when both objectives are finite (`exp(-inf) = 0`;
comparisons against `nan` are false). -/
def alnsStep (s : AlnsState) (inp : AlnsInput) : AlnsState :=
  let fCurr := objective s.curr
  let fNew := objective inp.newSol
  let accept := fNew < fCurr ∨ (fNew ≠ ⊤ ∧ fCurr ≠ ⊤ ∧ inp.sa = true)
  if accept then
    if fNew < objective s.best then
      { curr := inp.newSol, best := inp.newSol,
        scores := bumpScore s.scores inp.opIdx 10,
        temp := s.temp * Config.COOLING_RATE }
    else
      { s with curr := inp.newSol, temp := s.temp * Config.COOLING_RATE }
  else { s with temp := s.temp * Config.COOLING_RATE }

/-- The driver's initial state: current = best = initial solution,
scores all 1. -/
def alnsInit (sol : Solution) (nOps : ℕ) : AlnsState :=
  ⟨sol, sol, List.replicate nOps 1, Config.START_TEMP⟩

/-- Run the driver for a list of iteration inputs. -/
def alnsRun (s : AlnsState) (inps : List AlnsInput) : AlnsState :=
  inps.foldl alnsStep s

/-! ## Distance matrix construction (src/data_loader.py) and lookup -/

/-- `load_problem`'s distance matrix: an `n × n` array initialized to
zero, then each listed `(u, v, d)` with in-range indices overwrites
entry `(u, v)`. -/
def buildDistMatrix (n : ℕ) (entries : List (ℕ × ℕ × ℚ)) :
    ℕ → ℕ → ℚ :=
  entries.foldl
    (fun M e =>
      if e.1 < n ∧ e.2.1 < n then
        fun u v => if u = e.1 ∧ v = e.2.1 then e.2.2 else M u v
      else M)
    (fun _ _ => 0)

/-- `FleetManager.get_distance`: matrix lookup by node ids.  For
loader-built matrices every id is in range, so the source's
`except`-branch (Euclidean distance from the dummy coordinates) is
unreachable and the lookup is total. -/
def get_distance (M : ℕ → ℕ → ℚ) (n1 n2 : Node) : ℚ :=
  M n1.id n2.id

/-! ## Concrete instances used by witnesses and counterexamples -/

/-- The virtual depot node (id 0). -/
def depotN : Node := ⟨0, false, 0, 0, []⟩

/-- A unit test item. -/
def itmW : Item := ⟨"i1", 1, 1, 1, 1⟩

/-- A customer with one unit item. -/
def custN : Node := ⟨1, false, 0, 0, [itmW]⟩

/-- A small vehicle (10 × 10 × 10). -/
def vehSmall : VehicleType := ⟨"VS", 10, 10, 10, 100⟩

/-- A large vehicle (20 × 20 × 20). -/
def vehBig : VehicleType := ⟨"VB", 20, 20, 20, 100⟩

/-- A route serving `custN` with `vehSmall`, as the packer packs it. -/
def routeW : Route :=
  ⟨vehSmall, [depotN, custN, depotN], [⟨itmW, 0, 0, 0, 1, 1, 1⟩], 0, 1 / 1000⟩

/-- A solution with no routes. -/
def solEmpty : Solution := ⟨depotN, depotN, []⟩

/-- A solution with the single route `routeW`. -/
def solOne : Solution := ⟨depotN, depotN, [routeW]⟩

/-! ## Generic list helpers -/

/-- Fold preservation of a predicate. -/
theorem foldl_pres {α β : Type} {P : β → Prop} (f : β → α → β) :
    ∀ (l : List α) (b : β), (∀ b a, a ∈ l → P b → P (f b a)) → P b →
      P (l.foldl f b)
  | [], _, _, hb => hb
  | a :: as, b, hstep, hb =>
    foldl_pres f as (f b a) (fun b' a' ha' => hstep b' a' (List.mem_cons_of_mem _ ha'))
      (hstep b a (List.mem_cons_self _ _) hb)

/-- Lower bounds through a `foldl min`. -/
theorem le_foldl_min (b : ℚ) : ∀ (l : List ℚ) (a : ℚ),
    b ≤ l.foldl min a ↔ b ≤ a ∧ ∀ q ∈ l, b ≤ q
  | [], a => by simp
  | q :: l, a => by
    rw [List.foldl_cons, le_foldl_min b l (min a q)]
    simp only [le_min_iff, List.mem_cons]
    constructor
    · rintro ⟨⟨ha, hq⟩, hl⟩
      exact ⟨ha, fun r hr => hr.elim (fun h => h ▸ hq) (hl r)⟩
    · rintro ⟨ha, hl⟩
      exact ⟨⟨ha, hl q (Or.inl rfl)⟩, fun r hr => hl r (Or.inr hr)⟩

/-- Upper bounds through a `foldl max`. -/
theorem foldl_max_le (b : ℚ) : ∀ (l : List ℚ) (a : ℚ),
    l.foldl max a ≤ b ↔ a ≤ b ∧ ∀ q ∈ l, q ≤ b
  | [], a => by simp
  | q :: l, a => by
    rw [List.foldl_cons, foldl_max_le b l (max a q)]
    simp only [max_le_iff, List.mem_cons]
    constructor
    · rintro ⟨⟨ha, hq⟩, hl⟩
      exact ⟨ha, fun r hr => hr.elim (fun h => h ▸ hq) (hl r)⟩
    · rintro ⟨ha, hl⟩
      exact ⟨⟨ha, hl q (Or.inl rfl)⟩, fun r hr => hl r (Or.inr hr)⟩

/-! ## Claim C2: objective of the empty solution -/

/-- C2 (counterexample).  The claim asserts that for an empty route
collection both the Solution's own cost and the driver's objective are
+∞.  On the empty solution the driver's objective is indeed `⊤`, but
`Solution.total_cost` returns the finite value `0.0`, so the claim as
stated is false. -/
theorem C2_counterexample :
    objective solEmpty = ⊤ ∧ Solution.total_cost solEmpty = 0 ∧
      (((Solution.total_cost solEmpty : ℚ) : WithTop ℚ) ≠ ⊤) := by
  refine ⟨rfl, rfl, ?_⟩
  simp [Solution.total_cost, solEmpty]

/-- C2 (amended).  For an empty route collection the ALNS driver's
objective is `⊤` while `Solution.total_cost` is `0`; on any non-empty
route collection the two agree. -/
theorem C2_empty_objective (sol : Solution) :
    (sol.routes = [] → objective sol = ⊤ ∧ Solution.total_cost sol = 0) ∧
      (sol.routes ≠ [] →
        objective sol = ((Solution.total_cost sol : ℚ) : WithTop ℚ)) := by
  constructor
  · intro h
    simp [objective, Solution.total_cost, h]
  · intro h
    have h' : sol.routes.isEmpty = false := by
      simp [List.isEmpty_iff, h]
    simp [objective, Solution.total_cost, h']

/-- C2 (witness): the amended statement applied to the one-route
solution. -/
theorem C2_witness :
    objective solOne = ((Solution.total_cost solOne : ℚ) : WithTop ℚ) :=
  (C2_empty_objective solOne).2 (by decide)

/-! ## Claim C8: distance lookup -/

/-- The loader's matrix fold leaves an entry no assignment targets at
its accumulator value. -/
theorem distFold_untouched (n u v : ℕ) :
    ∀ (es : List (ℕ × ℕ × ℚ)) (M : ℕ → ℕ → ℚ),
      (∀ e ∈ es, ¬(e.1 = u ∧ e.2.1 = v)) →
      (es.foldl
        (fun M e =>
          if e.1 < n ∧ e.2.1 < n then
            fun u v => if u = e.1 ∧ v = e.2.1 then e.2.2 else M u v
          else M)
        M) u v = M u v
  | [], _, _ => rfl
  | e :: es, M, h => by
    rw [List.foldl_cons,
      distFold_untouched n u v es _ (fun e' he' => h e' (List.mem_cons_of_mem _ he'))]
    by_cases hg : e.1 < n ∧ e.2.1 < n
    · simp only [if_pos hg]
      exact if_neg fun hc =>
        h e (List.mem_cons_self _ _) ⟨hc.1.symm, hc.2.symm⟩
    · simp only [if_neg hg]

/-- The loader's matrix fold preserves entrywise nonnegativity when all
listed distances are nonnegative. -/
theorem distFold_nonneg (n u v : ℕ) :
    ∀ (es : List (ℕ × ℕ × ℚ)) (M : ℕ → ℕ → ℚ),
      (∀ e ∈ es, 0 ≤ e.2.2) → (∀ a b, 0 ≤ M a b) →
      0 ≤ (es.foldl
        (fun M e =>
          if e.1 < n ∧ e.2.1 < n then
            fun u v => if u = e.1 ∧ v = e.2.1 then e.2.2 else M u v
          else M)
        M) u v
  | [], _, _, hM => hM u v
  | e :: es, M, h, hM => by
    rw [List.foldl_cons]
    refine distFold_nonneg n u v es _ (fun e' he' => h e' (List.mem_cons_of_mem _ he')) ?_
    intro a b
    by_cases hg : e.1 < n ∧ e.2.1 < n
    · simp only [if_pos hg]
      by_cases ht : a = e.1 ∧ b = e.2.1
      · simpa [ht] using h e (List.mem_cons_self _ _)
      · simpa [ht] using hM a b
    · simpa [if_neg hg] using hM a b

/-- C8 (counterexample).  The claim asserts that a pair missing from the
distance map is looked up as +∞.  With the loader-built matrix the pair
`(2, 1)` is absent from the map yet the lookup returns the finite value
`0` (the zero initialization of the numpy array), not infinity. -/
theorem C8_counterexample :
    (∀ e ∈ ([(1, 2, 5)] : List (ℕ × ℕ × ℚ)), ¬(e.1 = 2 ∧ e.2.1 = 1)) ∧
      get_distance (buildDistMatrix 3 [(1, 2, 5)]) ⟨2, false, 0, 0, []⟩
          ⟨1, false, 0, 0, []⟩ = 0 ∧
      ((get_distance (buildDistMatrix 3 [(1, 2, 5)]) ⟨2, false, 0, 0, []⟩
          ⟨1, false, 0, 0, []⟩ : ℚ) : WithTop ℚ) ≠ ⊤ := by
  refine ⟨by decide, by decide, ?_⟩
  rw [show get_distance (buildDistMatrix 3 [(1, 2, 5)]) ⟨2, false, 0, 0, []⟩
      ⟨1, false, 0, 0, []⟩ = 0 by decide]
  simp

/-- C8 (amended).  `get_distance` on a loader-built matrix returns the
matrix entry; an entry is nonnegative whenever every listed distance is
nonnegative, and a pair no map entry targets — in particular a missing
pair, and the self-diagonal when the map has no self-entry — is returned
as `0` (its zero initialization), never as +∞. -/
theorem C8_distance (n : ℕ) (es : List (ℕ × ℕ × ℚ)) (n1 n2 : Node) :
    ((∀ e ∈ es, 0 ≤ e.2.2) →
      0 ≤ get_distance (buildDistMatrix n es) n1 n2) ∧
    ((∀ e ∈ es, ¬(e.1 = n1.id ∧ e.2.1 = n2.id)) →
      get_distance (buildDistMatrix n es) n1 n2 = 0) := by
  constructor
  · intro h
    exact distFold_nonneg n n1.id n2.id es _ h (fun _ _ => le_refl 0)
  · intro h
    exact distFold_untouched n n1.id n2.id es _ h

/-- C8 (witness): the amended statement applied to a concrete map with a
present pair, evaluated at its absent reverse pair. -/
theorem C8_witness :
    get_distance (buildDistMatrix 3 [(1, 2, 5)]) ⟨2, true, 3, 4, []⟩
      ⟨1, false, 0, 0, []⟩ = 0 :=
  (C8_distance 3 [(1, 2, 5)] ⟨2, true, 3, 4, []⟩ ⟨1, false, 0, 0, []⟩).2 (by decide)

/-! ## Claim C10: packer failure atomicity -/

/-- C10.  Whenever `pack` reports infeasible — via a cached negative
entry or a fresh placement failure — the route is returned exactly as it
came in: `packed_items` and `load_rate` are written only on the success
path. -/
theorem C10_pack_failure_atomic (e : Bool) (c : PackCache) (r : Route)
    (h : (pack e c r).1 = false) : (pack e c r).2.1 = r := by
  unfold pack at h ⊢
  generalize (if e = true then cacheFind c r.signature else none) = o at h ⊢
  cases o with
  | some res =>
    by_cases hf : res.feasible = true
    · simp [hf] at h
    · simp only [Bool.not_eq_true] at hf
      simp [hf]
  | none =>
    generalize packCompute r.vehicle r.sequence = pr at h ⊢
    cases pr with
    | none => rfl
    | some p =>
      obtain ⟨items, rate⟩ := p
      simp at h

/-- C10 (witness): a route whose single item cannot fit; `pack` fails
and returns the route unchanged. -/
theorem C10_witness :
    (pack true [] ⟨vehSmall, [depotN, ⟨1, false, 0, 0, [⟨"big", 20, 20, 20, 1⟩]⟩,
        depotN], [], 0, 0⟩).1 = false ∧
    (pack true [] ⟨vehSmall, [depotN, ⟨1, false, 0, 0, [⟨"big", 20, 20, 20, 1⟩]⟩,
        depotN], [], 0, 0⟩).2.1 =
      ⟨vehSmall, [depotN, ⟨1, false, 0, 0, [⟨"big", 20, 20, 20, 1⟩]⟩,
        depotN], [], 0, 0⟩ :=
  ⟨by decide, C10_pack_failure_atomic true [] _ (by decide)⟩

/-! ## Claim C6: vectorized vs scalar collision test -/

/-- C6.  On every candidate box and every finite list of placed boxes
(the whole matrix valid), the numpy-vectorized collision test returns
exactly the boolean of the scalar reference loop. -/
theorem C6_vectorized_eq_scalar (nb : Aabb) (ps : List Aabb) :
    check_aabb_collision_vectorized nb ps ps.length =
      check_aabb_collision_fast nb ps := by
  have key1 : ∀ a b : ℚ, decide (a > b + EPS) = !decide (a - EPS ≤ b) := by
    intro a b
    rw [← decide_not]
    apply decide_eq_decide.mpr
    rw [not_le]
    constructor <;> intro h <;> linarith
  have key2 : ∀ a b : ℚ, decide (a < b - EPS) = !decide (a + EPS ≥ b) := by
    intro a b
    rw [← decide_not]
    apply decide_eq_decide.mpr
    rw [ge_iff_le, not_le]
    constructor <;> intro h <;> linarith
  have hpt : ∀ p : Aabb,
      ((decide (nb.x2 > p.x1 + EPS) && decide (nb.x1 < p.x2 - EPS)) &&
        (decide (nb.y2 > p.y1 + EPS) && decide (nb.y1 < p.y2 - EPS)) &&
        (decide (nb.z2 > p.z1 + EPS) && decide (nb.z1 < p.z2 - EPS))) =
      (!(decide (nb.x2 - EPS ≤ p.x1) || decide (nb.x1 + EPS ≥ p.x2)) &&
        !(decide (nb.y2 - EPS ≤ p.y1) || decide (nb.y1 + EPS ≥ p.y2)) &&
        !(decide (nb.z2 - EPS ≤ p.z1) || decide (nb.z1 + EPS ≥ p.z2))) := by
    intro p
    rw [key1, key1, key1, key2, key2, key2, Bool.not_or, Bool.not_or,
      Bool.not_or]
  simp only [check_aabb_collision_vectorized, check_aabb_collision_fast]
  by_cases h0 : ps.length = 0
  · have hps : ps = [] := List.length_eq_zero.mp h0
    subst hps
    simp
  · rw [if_neg h0, List.take_length]
    by_cases h1 : ps.any (fun p =>
        decide (nb.x2 > p.x1 + EPS) && decide (nb.x1 < p.x2 - EPS)) = true
    · rw [if_neg (by simp [h1])]
      by_cases h2 : ps.any (fun p =>
          (decide (nb.x2 > p.x1 + EPS) && decide (nb.x1 < p.x2 - EPS)) &&
          (decide (nb.y2 > p.y1 + EPS) && decide (nb.y1 < p.y2 - EPS))) = true
      · rw [if_neg (by simp [h2])]
        simp only [hpt]
      · rw [if_pos h2]
        symm
        rw [List.any_eq_false]
        intro p hp hcon
        rw [← hpt p] at hcon
        refine h2 (List.any_eq_true.mpr ⟨p, hp, ?_⟩)
        simp only [Bool.and_eq_true] at hcon ⊢
        exact hcon.1
    · rw [if_pos h1]
      symm
      rw [List.any_eq_false]
      intro p hp hcon
      rw [← hpt p] at hcon
      refine h1 (List.any_eq_true.mpr ⟨p, hp, ?_⟩)
      simp only [Bool.and_eq_true] at hcon ⊢
      exact hcon.1.1

/-! ## Claim C9: best-solution update and operator reward -/

/-- One driver step keeps the best objective at most the current
objective. -/
theorem alnsStep_best_le_curr (s : AlnsState) (inp : AlnsInput)
    (h : objective s.best ≤ objective s.curr) :
    objective (alnsStep s inp).best ≤ objective (alnsStep s inp).curr := by
  unfold alnsStep
  by_cases hacc : objective inp.newSol < objective s.curr ∨
      (objective inp.newSol ≠ ⊤ ∧ objective s.curr ≠ ⊤ ∧ inp.sa = true)
  · rw [if_pos hacc]
    by_cases hbest : objective inp.newSol < objective s.best
    · rw [if_pos hbest]
    · rw [if_neg hbest]
      exact le_of_not_lt hbest
  · rw [if_neg hacc]
    exact h

/-- Along any run from the initial state, the best objective stays at
most the current objective. -/
theorem alnsRun_best_le_curr (sol : Solution) (n : ℕ) :
    ∀ (inps : List AlnsInput) (s : AlnsState),
      objective s.best ≤ objective s.curr →
      objective (alnsRun s inps).best ≤ objective (alnsRun s inps).curr
  | [], _, h => h
  | inp :: inps, s, h =>
    alnsRun_best_le_curr sol n inps (alnsStep s inp)
      (alnsStep_best_le_curr s inp h)

/-- C9.  At any reachable driver state, whenever the repaired solution's
objective is strictly below the best objective, the step replaces the
best solution by the repaired solution and adds reward 10 to the
selected repair operator's score — whatever the simulated-annealing draw
`inp.sa` was.  (Reachability matters: it gives `objective best ≤
objective curr`, so such a step is always accepted via `delta < 0`.) -/
theorem C9_reward_on_new_best (sol : Solution) (n : ℕ)
    (inps : List AlnsInput) (inp : AlnsInput)
    (h : objective inp.newSol <
      objective (alnsRun (alnsInit sol n) inps).best) :
    (alnsStep (alnsRun (alnsInit sol n) inps) inp).best = inp.newSol ∧
      (alnsStep (alnsRun (alnsInit sol n) inps) inp).scores =
        bumpScore (alnsRun (alnsInit sol n) inps).scores inp.opIdx 10 := by
  have hinv : objective (alnsRun (alnsInit sol n) inps).best ≤
      objective (alnsRun (alnsInit sol n) inps).curr :=
    alnsRun_best_le_curr sol n inps (alnsInit sol n) le_rfl
  have hcurr : objective inp.newSol <
      objective (alnsRun (alnsInit sol n) inps).curr :=
    lt_of_lt_of_le h hinv
  unfold alnsStep
  rw [if_pos (Or.inl hcurr), if_pos h]
  exact ⟨rfl, rfl⟩

/-- C9 (witness): from the empty initial solution, a repaired one-route
solution strictly improves on the best (`⊤`); even with the SA draw
false the step installs it as best and rewards operator 0. -/
theorem C9_witness :
    (alnsStep (alnsRun (alnsInit solEmpty 2) []) ⟨0, solOne, false⟩).best =
        solOne ∧
      (alnsStep (alnsRun (alnsInit solEmpty 2) []) ⟨0, solOne, false⟩).scores =
        bumpScore (alnsRun (alnsInit solEmpty 2) []).scores 0 10 :=
  C9_reward_on_new_best solEmpty 2 [] ⟨0, solOne, false⟩ (by decide)

/-! ## Claim C4: full-support check -/

/-- Membership in the cell list of a grid rectangle. -/
theorem mem_cellList {ix iy ixe iye a b : ℤ} :
    (a, b) ∈ cellList ix iy ixe iye ↔
      ix ≤ a ∧ a < ixe ∧ iy ≤ b ∧ b < iye := by
  constructor
  · intro h
    rw [cellList, List.mem_flatMap] at h
    obtain ⟨i, hi, hmap⟩ := h
    rw [List.mem_map] at hmap
    obtain ⟨j, hj, heq⟩ := hmap
    rw [List.mem_range] at hi hj
    cases heq
    omega
  · rintro ⟨h1, h2, h3, h4⟩
    rw [cellList, List.mem_flatMap]
    refine ⟨(a - ix).toNat, ?_, ?_⟩
    · rw [List.mem_range]
      omega
    · rw [List.mem_map]
      refine ⟨(b - iy).toNat, ?_, ?_⟩
      · rw [List.mem_range]
        omega
      · rw [Prod.mk.injEq]
        constructor <;> omega

/-- A positive-length footprint spans at least one grid index. -/
theorem floor_lt_ceil_of_pos (p x l : ℚ) (hp : 0 < p) (hl : 0 < l) :
    ⌊x / p⌋ < ⌈(x + l) / p⌉ := by
  refine Int.lt_ceil.mpr (lt_of_le_of_lt (Int.floor_le (x / p)) ?_)
  exact (div_lt_div_iff_of_pos_right hp).mpr (by linarith)

/-- C4.  Under the strict full-support configuration
(`supportRatio = 1`), for every in-bounds footprint of positive extent
and every (integer, as produced by the packer) height `z`,
`check_support` holds iff `z = 0` or every covered cell's height is
within `EPS` of `z`; in particular the four-corner early reject never
changes the outcome. -/
theorem C4_check_support (hm : HeightMap) (x y l w : ℚ) (z : ℕ)
    (hp : 0 < hm.precision) (hl : 0 < l) (hw : 0 < w)
    (hx : (gridRange hm.precision x y l w).2.2.1 ≤ hm.gx)
    (hy : (gridRange hm.precision x y l w).2.2.2 ≤ hm.gy) :
    hm.check_support x y l w (z : ℚ) = true ↔
      (z = 0 ∨ ∀ c ∈ cellList (gridRange hm.precision x y l w).1
          (gridRange hm.precision x y l w).2.1
          (gridRange hm.precision x y l w).2.2.1
          (gridRange hm.precision x y l w).2.2.2,
        |hm.map c.1 c.2 - (z : ℚ)| ≤ EPS) := by
  simp only [HeightMap.check_support]
  set ix := (gridRange hm.precision x y l w).1 with hix
  set iy := (gridRange hm.precision x y l w).2.1 with hiy
  set ixe := (gridRange hm.precision x y l w).2.2.1 with hixe
  set iye := (gridRange hm.precision x y l w).2.2.2 with hiye
  have hxe : ix < ixe := by
    rw [hix, hixe]
    exact floor_lt_ceil_of_pos hm.precision x l hp hl
  have hye : iy < iye := by
    rw [hiy, hiye]
    exact floor_lt_ceil_of_pos hm.precision y w hp hw
  have m11 : (ix, iy) ∈ cellList ix iy ixe iye :=
    mem_cellList.mpr ⟨le_rfl, hxe, le_rfl, hye⟩
  have m22 : (ixe - 1, iye - 1) ∈ cellList ix iy ixe iye :=
    mem_cellList.mpr ⟨by omega, by omega, by omega, by omega⟩
  have m12 : (ix, iye - 1) ∈ cellList ix iy ixe iye :=
    mem_cellList.mpr ⟨le_rfl, hxe, by omega, by omega⟩
  have m21 : (ixe - 1, iy) ∈ cellList ix iy ixe iye :=
    mem_cellList.mpr ⟨by omega, by omega, le_rfl, hye⟩
  rw [if_neg (by push_neg; exact ⟨hx, hy⟩)]
  rcases Nat.eq_zero_or_pos z with hz | hz
  · subst hz
    rw [if_neg (by rintro ⟨hcon, -⟩; norm_num [EPS] at hcon),
      if_pos (by norm_num [EPS])]
    simp
  · have hz1 : (1 : ℚ) ≤ (z : ℚ) := by exact_mod_cast hz
    have hze : EPS < (z : ℚ) := by rw [EPS]; linarith
    have hz0 : ¬ z = 0 := by omega
    by_cases hcor : hm.map ix iy < (z : ℚ) - EPS ∨
        hm.map (ixe - 1) (iye - 1) < (z : ℚ) - EPS ∨
        hm.map ix (iye - 1) < (z : ℚ) - EPS ∨
        hm.map (ixe - 1) iy < (z : ℚ) - EPS
    · rw [if_pos ⟨hze, hcor⟩]
      constructor
      · intro hft
        exact absurd hft (by simp)
      · rintro (h0 | hall)
        · exact absurd h0 hz0
        · exfalso
          rcases hcor with h | h | h | h
          · have := abs_sub_le_iff.mp (hall _ m11)
            linarith [this.2]
          · have := abs_sub_le_iff.mp (hall _ m22)
            linarith [this.2]
          · have := abs_sub_le_iff.mp (hall _ m12)
            linarith [this.2]
          · have := abs_sub_le_iff.mp (hall _ m21)
            linarith [this.2]
    · rw [if_neg (fun hcon => hcor hcon.2),
        if_neg (not_lt.mpr (le_of_lt hze))]
      have hne : cellList ix iy ixe iye ≠ [] := by
        intro he
        rw [he] at m11
        exact absurd m11 (List.not_mem_nil _)
      obtain ⟨c0, cs, hcc⟩ := List.exists_cons_of_ne_nil hne
      rw [hcc]
      show regionSupport hm ix iy ixe iye (z : ℚ) c0 cs = true ↔ _
      simp only [regionSupport]
      rw [if_pos (by norm_num [Config.supportRatio])]
      by_cases hmin :
          ((cs.map fun ij => hm.map ij.1 ij.2).foldl min
            (hm.map c0.1 c0.2)) < (z : ℚ) - EPS
      · rw [if_pos hmin]
        constructor
        · intro hft
          exact absurd hft (by simp)
        · rintro (h0 | hall)
          · exact absurd h0 hz0
          · exfalso
            have hall' : (z : ℚ) - EPS ≤
                (cs.map fun ij => hm.map ij.1 ij.2).foldl min
                  (hm.map c0.1 c0.2) := by
              rw [le_foldl_min]
              refine ⟨?_, ?_⟩
              · have := abs_sub_le_iff.mp
                  (hall c0 (List.mem_cons_self _ _))
                linarith [this.2]
              · intro q hq
                obtain ⟨c, hc, rfl⟩ := List.mem_map.mp hq
                have := abs_sub_le_iff.mp
                  (hall c (List.mem_cons_of_mem _ hc))
                linarith [this.2]
            exact absurd hall' (not_le.mpr hmin)
      · rw [if_neg hmin]
        by_cases hmax :
            ((cs.map fun ij => hm.map ij.1 ij.2).foldl max
              (hm.map c0.1 c0.2)) > (z : ℚ) + EPS
        · rw [if_pos hmax]
          constructor
          · intro hft
            exact absurd hft (by simp)
          · rintro (h0 | hall)
            · exact absurd h0 hz0
            · exfalso
              have hall' :
                  ((cs.map fun ij => hm.map ij.1 ij.2).foldl max
                    (hm.map c0.1 c0.2)) ≤ (z : ℚ) + EPS := by
                rw [foldl_max_le]
                refine ⟨?_, ?_⟩
                · have := abs_sub_le_iff.mp
                    (hall c0 (List.mem_cons_self _ _))
                  linarith [this.1]
                · intro q hq
                  obtain ⟨c, hc, rfl⟩ := List.mem_map.mp hq
                  have := abs_sub_le_iff.mp
                    (hall c (List.mem_cons_of_mem _ hc))
                  linarith [this.1]
              exact absurd hmax (not_lt.mpr hall')
        · rw [if_neg hmax]
          have hlo := (le_foldl_min ((z : ℚ) - EPS) _ _).mp (not_lt.mp hmin)
          have hhi := (foldl_max_le ((z : ℚ) + EPS) _ _).mp (not_lt.mp hmax)
          constructor
          · intro _
            refine Or.inr fun c hc => ?_
            rcases List.mem_cons.mp hc with rfl | hcs
            · exact abs_sub_le_iff.mpr ⟨by linarith [hhi.1], by linarith [hlo.1]⟩
            · have h1 := hlo.2 _ (List.mem_map_of_mem _ hcs)
              have h2 := hhi.2 _ (List.mem_map_of_mem _ hcs)
              exact abs_sub_le_iff.mpr ⟨by linarith, by linarith⟩
          · intro _
            rfl

/-- C4 (witness): a 2×2 footprint on top of a box of height 5 covering
cells `[0,2)²` is supported at `z = 5`. -/
theorem C4_witness :
    ((HeightMap.init 10 10).update 0 0 2 2 5).check_support 0 0 2 2
      ((5 : ℕ) : ℚ) = true :=
  (C4_check_support ((HeightMap.init 10 10).update 0 0 2 2 5) 0 0 2 2 5
    (by decide) (by decide) (by decide) (by decide) (by decide)).mpr
    (Or.inr (by decide))

/-! ## Claim C3: smallest feasible vehicle -/

/-- Membership through ordered insertion. -/
theorem mem_insOrd {α : Type} (le : α → α → Bool) (a x : α) :
    ∀ l : List α, x ∈ insOrd le a l ↔ x = a ∨ x ∈ l
  | [] => by simp [insOrd]
  | b :: bs => by
    simp only [insOrd]
    by_cases h : le a b
    · rw [if_pos h]
      simp [List.mem_cons]
    · rw [if_neg h]
      simp only [List.mem_cons, mem_insOrd le a x bs]
      tauto

/-- Membership through the stable sort. -/
theorem mem_stableSort {α : Type} (le : α → α → Bool) (x : α) :
    ∀ l : List α, x ∈ stableSort le l ↔ x ∈ l
  | [] => Iff.rfl
  | a :: as => by
    simp only [stableSort, mem_insOrd, mem_stableSort le x as,
      List.mem_cons]

/-- Ordered insertion preserves pairwise order for a total transitive
boolean relation. -/
theorem pairwise_insOrd {α : Type} {le : α → α → Bool}
    (htot : ∀ a b, le a b = true ∨ le b a = true)
    (htrans : ∀ a b c, le a b = true → le b c = true → le a c = true)
    (a : α) : ∀ l : List α,
      l.Pairwise (fun u v => le u v = true) →
      (insOrd le a l).Pairwise (fun u v => le u v = true)
  | [], _ => by simp [insOrd]
  | b :: bs, hl => by
    rw [List.pairwise_cons] at hl
    simp only [insOrd]
    by_cases h : le a b
    · rw [if_pos h]
      refine List.Pairwise.cons ?_ (List.Pairwise.cons hl.1 hl.2)
      intro y hy
      rcases List.mem_cons.mp hy with rfl | hbs
      · exact h
      · exact htrans a b y h (hl.1 y hbs)
    · rw [if_neg h]
      refine List.Pairwise.cons ?_ (pairwise_insOrd htot htrans a bs hl.2)
      intro y hy
      rcases (mem_insOrd le a y bs).mp hy with rfl | hbs
      · exact (htot y b).resolve_left (fun hc => h hc)
      · exact hl.1 y hbs

/-- The stable sort produces a pairwise-ordered list. -/
theorem pairwise_stableSort {α : Type} {le : α → α → Bool}
    (htot : ∀ a b, le a b = true ∨ le b a = true)
    (htrans : ∀ a b c, le a b = true → le b c = true → le a c = true) :
    ∀ l : List α,
      (stableSort le l).Pairwise (fun u v => le u v = true)
  | [] => List.Pairwise.nil
  | a :: as => pairwise_insOrd htot htrans a _
      (pairwise_stableSort htot htrans as)

/-- The sorted catalog is ordered by ascending volume. -/
theorem sortedTypes_pairwise (fm : FleetManager) :
    fm.sortedTypes.Pairwise (fun u v => u.volume ≤ v.volume) := by
  have h := @pairwise_stableSort VehicleType
    (fun a b : VehicleType => decide (a.volume ≤ b.volume))
    (fun a b => by
      rcases le_total a.volume b.volume with h | h
      · exact Or.inl (decide_eq_true h)
      · exact Or.inr (decide_eq_true h))
    (fun a b c hab hbc =>
      decide_eq_true (le_trans (of_decide_eq_true hab) (of_decide_eq_true hbc)))
    fm.vehicle_types
  exact h.imp fun hd => of_decide_eq_true hd

/-- Whether a vehicle passes the weight prune and the packer for a
sequence — the two conditions of the claim. -/
def vehReady (seq : List Node) (v : VehicleType) : Prop :=
  seqWeight seq ≤ v.max_weight ∧ (packCompute v seq).isSome = true

/-- A failed catalog scan means no catalog vehicle passes both
conditions. -/
theorem findVehicleGo_none (seq : List Node) (dist : ℚ) :
    ∀ L : List VehicleType, findVehicleGo seq dist L = none →
      ∀ v ∈ L, ¬ vehReady seq v
  | [], _, v, hv => absurd hv (List.not_mem_nil v)
  | v0 :: vs, h, v, hv => by
    rw [findVehicleGo] at h
    by_cases hw : seqWeight seq > v0.max_weight
    · rw [if_pos hw] at h
      rcases List.mem_cons.mp hv with rfl | hvs
      · rintro ⟨hle, -⟩
        exact absurd hle (not_le.mpr hw)
      · exact findVehicleGo_none seq dist vs h v hvs
    · rw [if_neg hw] at h
      cases hpc : packCompute v0 seq with
      | none =>
        rw [hpc] at h
        rcases List.mem_cons.mp hv with rfl | hvs
        · rintro ⟨-, hsome⟩
          rw [hpc] at hsome
          exact absurd hsome (by simp)
        · exact findVehicleGo_none seq dist vs h v hvs
      | some pr =>
        obtain ⟨items, rate⟩ := pr
        rw [hpc] at h
        exact absurd h (by simp)

/-- If every catalog vehicle fails, the scan returns `none`. -/
theorem findVehicleGo_none_of (seq : List Node) (dist : ℚ) :
    ∀ L : List VehicleType, (∀ v ∈ L, ¬ vehReady seq v) →
      findVehicleGo seq dist L = none
  | [], _ => rfl
  | v0 :: vs, h => by
    rw [findVehicleGo]
    by_cases hw : seqWeight seq > v0.max_weight
    · rw [if_pos hw]
      exact findVehicleGo_none_of seq dist vs
        (fun v hv => h v (List.mem_cons_of_mem _ hv))
    · rw [if_neg hw]
      cases hpc : packCompute v0 seq with
      | none =>
        exact findVehicleGo_none_of seq dist vs
          (fun v hv => h v (List.mem_cons_of_mem _ hv))
      | some pr =>
        exfalso
        exact h v0 (List.mem_cons_self _ _)
          ⟨not_lt.mp hw, by rw [hpc]; rfl⟩

/-- A successful catalog scan returns the route of the first passing
vehicle; on a volume-sorted catalog no strictly smaller vehicle
passes. -/
theorem findVehicleGo_some (seq : List Node) (dist : ℚ) :
    ∀ (L : List VehicleType) (r : Route), findVehicleGo seq dist L = some r →
      r.sequence = seq ∧ r.dist_cost = dist ∧ r.vehicle ∈ L ∧
      seqWeight seq ≤ r.vehicle.max_weight ∧
      packCompute r.vehicle seq = some (r.packed_items, r.load_rate) ∧
      (L.Pairwise (fun u v => u.volume ≤ v.volume) →
        ∀ v ∈ L, v.volume < r.vehicle.volume → ¬ vehReady seq v)
  | [], r, h => absurd h (by simp [findVehicleGo])
  | v0 :: vs, r, h => by
    rw [findVehicleGo] at h
    by_cases hw : seqWeight seq > v0.max_weight
    · rw [if_pos hw] at h
      obtain ⟨h1, h2, h3, h4, h5, h6⟩ := findVehicleGo_some seq dist vs r h
      refine ⟨h1, h2, List.mem_cons_of_mem _ h3, h4, h5, ?_⟩
      intro hpw v hv hvol
      rcases List.mem_cons.mp hv with rfl | hvs
      · rintro ⟨hle, -⟩
        exact absurd hle (not_le.mpr hw)
      · exact h6 (List.pairwise_cons.mp hpw).2 v hvs hvol
    · rw [if_neg hw] at h
      cases hpc : packCompute v0 seq with
      | none =>
        rw [hpc] at h
        obtain ⟨h1, h2, h3, h4, h5, h6⟩ := findVehicleGo_some seq dist vs r h
        refine ⟨h1, h2, List.mem_cons_of_mem _ h3, h4, h5, ?_⟩
        intro hpw v hv hvol
        rcases List.mem_cons.mp hv with rfl | hvs
        · rintro ⟨-, hsome⟩
          rw [hpc] at hsome
          exact absurd hsome (by simp)
        · exact h6 (List.pairwise_cons.mp hpw).2 v hvs hvol
      | some pr =>
        obtain ⟨items, rate⟩ := pr
        rw [hpc] at h
        have hr : r = ⟨v0, seq, items, dist, rate⟩ := by
          injection h with h'
          exact h'.symm
        subst hr
        refine ⟨rfl, rfl, List.mem_cons_self _ _, not_lt.mp hw, hpc, ?_⟩
        intro hpw v hv hvol
        rcases List.mem_cons.mp hv with rfl | hvs
        · exact absurd hvol (lt_irrefl _)
        · exact absurd hvol
            (not_lt.mpr ((List.pairwise_cons.mp hpw).1 v hvs))

/-- C3.  `find_best_vehicle` returns a route on the given sequence whose
vehicle is a catalog vehicle passing both the weight prune and the
packer while every catalog vehicle of strictly smaller volume fails one
of the two; it returns `none` exactly when no catalog vehicle passes
both. -/
theorem C3_find_best_vehicle (fm : FleetManager) (seq : List Node) :
    (∀ r, find_best_vehicle fm seq = some r →
      r.sequence = seq ∧ r.vehicle ∈ fm.vehicle_types ∧
      seqWeight seq ≤ r.vehicle.max_weight ∧
      packCompute r.vehicle seq = some (r.packed_items, r.load_rate) ∧
      ∀ v ∈ fm.vehicle_types, v.volume < r.vehicle.volume →
        ¬ vehReady seq v) ∧
    (find_best_vehicle fm seq = none ↔
      ∀ v ∈ fm.vehicle_types, ¬ vehReady seq v) := by
  constructor
  · intro r hr
    obtain ⟨h1, _, h3, h4, h5, h6⟩ :=
      findVehicleGo_some seq (pathDist fm seq) fm.sortedTypes r hr
    refine ⟨h1, ?_, h4, h5, ?_⟩
    · exact (mem_stableSort _ _ _).mp h3
    · intro v hv hvol
      exact h6 (sortedTypes_pairwise fm) v
        ((mem_stableSort _ _ _).mpr hv) hvol
  · constructor
    · intro h v hv
      exact findVehicleGo_none seq (pathDist fm seq) fm.sortedTypes h v
        ((mem_stableSort _ _ _).mpr hv)
    · intro h
      exact findVehicleGo_none_of seq (pathDist fm seq) fm.sortedTypes
        (fun v hv => h v ((mem_stableSort _ _ _).mp hv))

/-- A two-vehicle catalog, deliberately unsorted. -/
def fmW3 : FleetManager := ⟨[vehBig, vehSmall], fun _ _ => 0⟩

/-- C3 (witness): on the unit-item sequence the search picks the small
vehicle and its packing result. -/
theorem C3_witness :
    seqWeight [depotN, custN, depotN] ≤ routeW.vehicle.max_weight ∧
      packCompute routeW.vehicle [depotN, custN, depotN] =
        some (routeW.packed_items, routeW.load_rate) := by
  have h := (C3_find_best_vehicle fmW3 [depotN, custN, depotN]).1 routeW
    (by decide)
  exact ⟨h.2.2.1, h.2.2.2.1⟩

/-! ## Claim C1: packer placement selection -/

/-- Preservation of a candidate property through one selection step. -/
theorem placeStep_pres (veh : VehicleType) (placed : List PackedItem)
    (hm : HeightMap) (ep : Point)
    {P : (Point × (ℚ × ℚ × ℚ)) → ℚ → Prop}
    (b : Option ((Point × (ℚ × ℚ × ℚ)) × ℚ)) (rot : ℚ × ℚ × ℚ)
    (hb : ∀ c s, b = some (c, s) → P c s)
    (hrot : candFeasible veh placed hm ep rot = true →
      P (ep, rot) (candScore ep)) :
    ∀ c s, placeStep veh placed hm ep b rot = some (c, s) → P c s := by
  intro c s hc
  rw [placeStep] at hc
  by_cases hcond : candFeasible veh placed hm ep rot = true ∧
      (candScore ep : WithTop ℚ) < stScore b
  · rw [if_pos hcond] at hc
    injection hc with hc'
    cases hc'
    exact hrot hcond.1
  · rw [if_neg hcond] at hc
    exact hb c s hc

/-- One selection step never increases the incumbent score. -/
theorem placeStep_score_le (veh : VehicleType) (placed : List PackedItem)
    (hm : HeightMap) (ep : Point)
    (b : Option ((Point × (ℚ × ℚ × ℚ)) × ℚ)) (rot : ℚ × ℚ × ℚ) :
    stScore (placeStep veh placed hm ep b rot) ≤ stScore b := by
  rw [placeStep]
  by_cases hcond : candFeasible veh placed hm ep rot = true ∧
      (candScore ep : WithTop ℚ) < stScore b
  · rw [if_pos hcond]
    exact le_of_lt hcond.2
  · rw [if_neg hcond]

/-- After a step on a feasible candidate, the incumbent score is at most
that candidate's score. -/
theorem placeStep_cover (veh : VehicleType) (placed : List PackedItem)
    (hm : HeightMap) (ep : Point)
    (b : Option ((Point × (ℚ × ℚ × ℚ)) × ℚ)) (rot : ℚ × ℚ × ℚ)
    (hf : candFeasible veh placed hm ep rot = true) :
    stScore (placeStep veh placed hm ep b rot) ≤
      (candScore ep : WithTop ℚ) := by
  rw [placeStep]
  by_cases hlt : (candScore ep : WithTop ℚ) < stScore b
  · rw [if_pos ⟨hf, hlt⟩]
    exact le_rfl
  · rw [if_neg (fun hcon => hlt hcon.2)]
    exact not_lt.mp hlt

/-- A step that still yields no incumbent started with none and saw an
infeasible candidate. -/
theorem placeStep_none (veh : VehicleType) (placed : List PackedItem)
    (hm : HeightMap) (ep : Point)
    (b : Option ((Point × (ℚ × ℚ × ℚ)) × ℚ)) (rot : ℚ × ℚ × ℚ)
    (h : placeStep veh placed hm ep b rot = none) :
    b = none ∧ candFeasible veh placed hm ep rot = false := by
  rw [placeStep] at h
  by_cases hcond : candFeasible veh placed hm ep rot = true ∧
      (candScore ep : WithTop ℚ) < stScore b
  · rw [if_pos hcond] at h
    exact Option.noConfusion h
  · rw [if_neg hcond] at h
    subst h
    refine ⟨rfl, ?_⟩
    by_cases hf : candFeasible veh placed hm ep rot = true
    · exact absurd ⟨hf, by rw [stScore]; exact WithTop.coe_lt_top _⟩ hcond
    · exact Bool.not_eq_true _ ▸ hf

/-- Preservation of a candidate property through the inner (orientation)
fold. -/
theorem innerFold_pres (veh : VehicleType) (placed : List PackedItem)
    (hm : HeightMap) (ep : Point)
    {P : (Point × (ℚ × ℚ × ℚ)) → ℚ → Prop} :
    ∀ (rots : List (ℚ × ℚ × ℚ)) b,
      (∀ c s, b = some (c, s) → P c s) →
      (∀ rot ∈ rots, candFeasible veh placed hm ep rot = true →
        P (ep, rot) (candScore ep)) →
      ∀ c s, rots.foldl (placeStep veh placed hm ep) b = some (c, s) →
        P c s
  | [], _, hb, _ => hb
  | rot :: rots, b, hb, hrots =>
    innerFold_pres veh placed hm ep rots _
      (placeStep_pres veh placed hm ep b rot hb
        (hrots rot (List.mem_cons_self _ _)))
      (fun r hr => hrots r (List.mem_cons_of_mem _ hr))

/-- The inner fold never increases the incumbent score. -/
theorem innerFold_score_le (veh : VehicleType) (placed : List PackedItem)
    (hm : HeightMap) (ep : Point) :
    ∀ (rots : List (ℚ × ℚ × ℚ)) b,
      stScore (rots.foldl (placeStep veh placed hm ep) b) ≤ stScore b
  | [], _ => le_rfl
  | rot :: rots, b =>
    le_trans (innerFold_score_le veh placed hm ep rots _)
      (placeStep_score_le veh placed hm ep b rot)

/-- After the inner fold, the incumbent score is at most the score of
any feasible orientation of this extreme point. -/
theorem innerFold_cover (veh : VehicleType) (placed : List PackedItem)
    (hm : HeightMap) (ep : Point) :
    ∀ (rots : List (ℚ × ℚ × ℚ)) b (rot : ℚ × ℚ × ℚ), rot ∈ rots →
      candFeasible veh placed hm ep rot = true →
      stScore (rots.foldl (placeStep veh placed hm ep) b) ≤
        (candScore ep : WithTop ℚ)
  | [], _, rot, hr, _ => absurd hr (List.not_mem_nil rot)
  | rot0 :: rots, b, rot, hr, hf => by
    rcases List.mem_cons.mp hr with rfl | hrs
    · exact le_trans (innerFold_score_le veh placed hm ep rots _)
        (placeStep_cover veh placed hm ep b rot hf)
    · exact innerFold_cover veh placed hm ep rots _ rot hrs hf

/-- If the inner fold yields no incumbent, none existed and every
orientation of this extreme point is infeasible. -/
theorem innerFold_none (veh : VehicleType) (placed : List PackedItem)
    (hm : HeightMap) (ep : Point) :
    ∀ (rots : List (ℚ × ℚ × ℚ)) b,
      rots.foldl (placeStep veh placed hm ep) b = none →
      b = none ∧ ∀ rot ∈ rots, candFeasible veh placed hm ep rot = false
  | [], _, h => ⟨h, fun rot hr => absurd hr (List.not_mem_nil rot)⟩
  | rot0 :: rots, b, h => by
    obtain ⟨hstep, hrest⟩ := innerFold_none veh placed hm ep rots _ h
    obtain ⟨hb, hf0⟩ := placeStep_none veh placed hm ep b rot0 hstep
    refine ⟨hb, fun rot hr => ?_⟩
    rcases List.mem_cons.mp hr with rfl | hrs
    · exact hf0
    · exact hrest rot hrs

/-- Preservation of a candidate property through the outer (extreme
point) fold. -/
theorem outerFold_pres (veh : VehicleType) (placed : List PackedItem)
    (hm : HeightMap) (rots : List (ℚ × ℚ × ℚ))
    {P : (Point × (ℚ × ℚ × ℚ)) → ℚ → Prop} :
    ∀ (eps : List Point) b,
      (∀ c s, b = some (c, s) → P c s) →
      (∀ ep ∈ eps, ∀ rot ∈ rots,
        candFeasible veh placed hm ep rot = true →
        P (ep, rot) (candScore ep)) →
      ∀ c s,
        eps.foldl (fun best ep =>
          rots.foldl (placeStep veh placed hm ep) best) b = some (c, s) →
        P c s
  | [], _, hb, _ => hb
  | ep :: eps, b, hb, heps =>
    outerFold_pres veh placed hm rots eps _
      (innerFold_pres veh placed hm ep rots b hb
        (fun rot hr => heps ep (List.mem_cons_self _ _) rot hr))
      (fun e he rot hr => heps e (List.mem_cons_of_mem _ he) rot hr)

/-- The outer fold never increases the incumbent score. -/
theorem outerFold_score_le (veh : VehicleType) (placed : List PackedItem)
    (hm : HeightMap) (rots : List (ℚ × ℚ × ℚ)) :
    ∀ (eps : List Point) b,
      stScore (eps.foldl (fun best ep =>
        rots.foldl (placeStep veh placed hm ep) best) b) ≤ stScore b
  | [], _ => le_rfl
  | ep :: eps, b =>
    le_trans (outerFold_score_le veh placed hm rots eps _)
      (innerFold_score_le veh placed hm ep rots b)

/-- After the outer fold, the incumbent score is at most the score of
any feasible (extreme point, orientation) candidate. -/
theorem outerFold_cover (veh : VehicleType) (placed : List PackedItem)
    (hm : HeightMap) (rots : List (ℚ × ℚ × ℚ)) :
    ∀ (eps : List Point) b (ep : Point) (rot : ℚ × ℚ × ℚ),
      ep ∈ eps → rot ∈ rots →
      candFeasible veh placed hm ep rot = true →
      stScore (eps.foldl (fun best ep =>
        rots.foldl (placeStep veh placed hm ep) best) b) ≤
        (candScore ep : WithTop ℚ)
  | [], _, ep, _, he, _, _ => absurd he (List.not_mem_nil ep)
  | ep0 :: eps, b, ep, rot, he, hr, hf => by
    rcases List.mem_cons.mp he with rfl | hes
    · exact le_trans (outerFold_score_le veh placed hm rots eps _)
        (innerFold_cover veh placed hm ep rots b rot hr hf)
    · exact outerFold_cover veh placed hm rots eps _ ep rot hes hr hf

/-- If the outer fold yields no incumbent, every candidate is
infeasible. -/
theorem outerFold_none (veh : VehicleType) (placed : List PackedItem)
    (hm : HeightMap) (rots : List (ℚ × ℚ × ℚ)) :
    ∀ (eps : List Point) b,
      eps.foldl (fun best ep =>
        rots.foldl (placeStep veh placed hm ep) best) b = none →
      b = none ∧ ∀ ep ∈ eps, ∀ rot ∈ rots,
        candFeasible veh placed hm ep rot = false
  | [], _, h => ⟨h, fun ep he => absurd he (List.not_mem_nil ep)⟩
  | ep0 :: eps, b, h => by
    obtain ⟨hstep, hrest⟩ := outerFold_none veh placed hm rots eps _ h
    obtain ⟨hb, hf0⟩ := innerFold_none veh placed hm ep0 rots b hstep
    refine ⟨hb, fun ep he rot hr => ?_⟩
    rcases List.mem_cons.mp he with rfl | hes
    · exact hf0 rot hr
    · exact hrest ep hes rot hr

/-- C1 (amended).  The selection step returns a feasible candidate
minimizing the weighted score `x·1000 + z·100 + y` over all feasible
(extreme point, orientation) candidates — first seen among equal
scores — and returns `none` exactly when no candidate is feasible. -/
theorem C1_bestPlacement (veh : VehicleType) (placed : List PackedItem)
    (hm : HeightMap) (eps : List Point) (rots : List (ℚ × ℚ × ℚ)) :
    (∀ pr, bestPlacement veh placed hm eps rots = some pr →
      pr.1 ∈ eps ∧ pr.2 ∈ rots ∧
      candFeasible veh placed hm pr.1 pr.2 = true ∧
      ∀ ep ∈ eps, ∀ rot ∈ rots,
        candFeasible veh placed hm ep rot = true →
        candScore pr.1 ≤ candScore ep) ∧
    (bestPlacement veh placed hm eps rots = none →
      ∀ ep ∈ eps, ∀ rot ∈ rots,
        candFeasible veh placed hm ep rot = false) := by
  constructor
  · intro pr hpr
    rw [bestPlacement] at hpr
    obtain ⟨⟨c, s⟩, hfold, hc⟩ := Option.map_eq_some'.mp hpr
    cases hc
    have hP := @outerFold_pres veh placed hm rots
      (fun c s => s = candScore c.1 ∧ c.1 ∈ eps ∧ c.2 ∈ rots ∧
        candFeasible veh placed hm c.1 c.2 = true)
      eps none (by intro c s h; exact Option.noConfusion h)
      (fun ep he rot hr hf => ⟨rfl, he, hr, hf⟩) c s hfold
    refine ⟨hP.2.1, hP.2.2.1, hP.2.2.2, ?_⟩
    intro ep he rot hr hf
    have hcov := outerFold_cover veh placed hm rots eps none ep rot he hr hf
    rw [hfold] at hcov
    rw [stScore] at hcov
    rw [← hP.1]
    exact_mod_cast hcov
  · intro hn
    rw [bestPlacement, Option.map_eq_none'] at hn
    exact (outerFold_none veh placed hm rots eps none hn).2

/-- C1 (witness): at the single origin extreme point the unit item is
feasibly selected. -/
theorem C1_witness :
    candFeasible vehSmall [] (HeightMap.init 10 10) (0, 0, 0) (1, 1, 1) =
      true :=
  ((C1_bestPlacement vehSmall [] (HeightMap.init 10 10) [(0, 0, 0)]
    itmW.orientations).1 ((0, 0, 0), (1, 1, 1)) (by decide)).2.2.1

/-- The narrow vehicle of the C1 counterexample. -/
def vehC1 : VehicleType := ⟨"VC1", 10, 300, 300, 10000⟩

/-- A 200 × 1 × 1 item, forced to lie along the y axis. -/
def itmC1a : Item := ⟨"a", 200, 1, 1, 1⟩

/-- A unit item. -/
def itmC1b : Item := ⟨"b", 1, 1, 1, 1⟩

/-- The placements after packing `itmC1a`. -/
def packedC1 : List PackedItem := [⟨itmC1a, 0, 0, 0, 1, 200, 1⟩]

/-- The height map after packing `itmC1a`. -/
def hmC1 : HeightMap := (HeightMap.init 10 300).update 0 0 1 200 1

/-- The extreme points after packing `itmC1a`. -/
def epsC1 : List Point :=
  stableSort (fun p q => decide (p.1 ≤ q.1))
    (updateExtremePoints [(0, 0, 0)] 0 0 0 1 200 1)

/-- Strict lexicographic order on the triples `(x, z, y)` of two extreme
points `(x, y, z)`. -/
abbrev lexLtXZY (a b : Point) : Prop :=
  a.1 < b.1 ∨ (a.1 = b.1 ∧
    (a.2.2 < b.2.2 ∨ (a.2.2 = b.2.2 ∧ a.2.1 < b.2.1)))

/-- C1 (counterexample).  In the packer state reached after placing
`itmC1a`, the selection picks the extreme point `(0,0,1)` — triple
`(x,z,y) = (0,1,0)` — although `(0,200,0)` is feasible with the
lexicographically smaller triple `(0,0,200)`: the weighted score
`x·1000 + z·100 + y` values y above 100·z, so the claimed lexicographic
`(x,z,y)` minimality fails. -/
theorem C1_counterexample :
    (placeItems vehC1 ⟨[(0, 0, 0)], [], HeightMap.init 10 300⟩
        [itmC1a]).map PackState.placed = some packedC1 ∧
    (placeItems vehC1 ⟨[(0, 0, 0)], [], HeightMap.init 10 300⟩
        [itmC1a]).map PackState.eps = some epsC1 ∧
    bestPlacement vehC1 packedC1 hmC1 epsC1 itmC1b.orientations =
      some ((0, 0, 1), (1, 1, 1)) ∧
    (0, 200, 0) ∈ epsC1 ∧ (1, 1, 1) ∈ itmC1b.orientations ∧
    candFeasible vehC1 packedC1 hmC1 (0, 200, 0) (1, 1, 1) = true ∧
    lexLtXZY (0, 200, 0) (0, 0, 1) := by
  decide

/-! ## Claim C7: cache coherence -/

/-- The verdict and route updates of a cache-free `pack` call. -/
def pureResultRoute (r : Route) : Bool × Route :=
  match packCompute r.vehicle r.sequence with
  | none => (false, r)
  | some pr =>
    (true, { r with packed_items := pr.1, load_rate := pr.2 })

/-- A cache entry is consistent with a packing outcome. -/
def entryConsistent (e : CacheEntry)
    (res : Option (List PackedItem × ℚ)) : Prop :=
  (e.feasible = true ∧ res = some (e.items, e.rate)) ∨
    (e.feasible = false ∧ res = none)

/-- Every cached entry agrees with `packCompute` on every route of `rs`
sharing its signature. -/
def CacheOK (rs : List Route) (c : PackCache) : Prop :=
  ∀ s e, cacheFind c s = some e → ∀ r ∈ rs, r.signature = s →
    entryConsistent e (packCompute r.vehicle r.sequence)

/-- Cache lookup after one insertion. -/
theorem cacheFind_cons (kv : (String × List ℕ) × CacheEntry)
    (c : PackCache) (s : String × List ℕ) :
    cacheFind (kv :: c) s =
      if kv.1 = s then some kv.2 else cacheFind c s := by
  by_cases h : kv.1 = s
  · rw [if_pos h, cacheFind, List.find?_cons_of_pos _ (by simpa using h)]
    rfl
  · rw [if_neg h, cacheFind, List.find?_cons_of_neg _ (by simpa using h)]
    rfl

/-- With the cache disabled, `pack`'s verdict and route are exactly the
cache-free result. -/
theorem pack_false_eq (c : PackCache) (r : Route) :
    ((pack false c r).1, (pack false c r).2.1) = pureResultRoute r := by
  unfold pack pureResultRoute
  cases hpc : packCompute r.vehicle r.sequence with
  | none => rfl
  | some pr => rfl

/-- A disabled-cache run maps each route to its cache-free result. -/
theorem packRun_disabled :
    ∀ (rs : List Route) (c : PackCache),
      packRun false c rs = rs.map pureResultRoute
  | [], _ => rfl
  | r :: rs, c => by
    simp only [packRun, List.map_cons]
    rw [← pack_false_eq c r]
    exact congrArg _ (packRun_disabled rs _)

/-- An enabled-cache run from a consistent cache also maps each route to
its cache-free result, provided routes with equal signatures have equal
packing outcomes. -/
theorem packRun_enabled :
    ∀ (rs : List Route) (c : PackCache), CacheOK rs c →
      (∀ r1 ∈ rs, ∀ r2 ∈ rs, r1.signature = r2.signature →
        packCompute r1.vehicle r1.sequence =
          packCompute r2.vehicle r2.sequence) →
      packRun true c rs = rs.map pureResultRoute
  | [], _, _, _ => rfl
  | r :: rs, c, hok, H => by
    simp only [packRun, List.map_cons]
    have hpack : pack true c r =
        (match cacheFind c r.signature with
          | some res =>
            if res.feasible = true then
              (true, { r with packed_items := res.items, load_rate := res.rate }, c)
            else (false, r, c)
          | none =>
            match packCompute r.vehicle r.sequence with
            | none => (false, r, (r.signature, ⟨false, [], 0⟩) :: c)
            | some (items, rate) =>
              (true, { r with packed_items := items, load_rate := rate },
                (r.signature, ⟨true, items, rate⟩) :: c)) := rfl
    cases hfind : cacheFind c r.signature with
    | some e =>
      have hcons := hok r.signature e hfind r (List.mem_cons_self _ _) rfl
      have htail : packRun true c rs = rs.map pureResultRoute :=
        packRun_enabled rs c
          (fun s e' he' r2 hr2 => hok s e' he' r2 (List.mem_cons_of_mem _ hr2))
          (fun r1 h1 r2 h2 =>
            H r1 (List.mem_cons_of_mem _ h1) r2 (List.mem_cons_of_mem _ h2))
      rcases hcons with ⟨hf, hres⟩ | ⟨hf, hres⟩
      · rw [hpack, hfind]
        simp only [hf, if_true]
        rw [pureResultRoute, hres]
        exact congrArg _ htail
      · rw [hpack, hfind]
        simp only [hf]
        rw [pureResultRoute, hres]
        exact congrArg _ htail
    | none =>
      rw [hpack, hfind]
      cases hpc : packCompute r.vehicle r.sequence with
      | none =>
        rw [pureResultRoute, hpc]
        refine congrArg _ (packRun_enabled rs _ ?_ (fun r1 h1 r2 h2 =>
          H r1 (List.mem_cons_of_mem _ h1) r2 (List.mem_cons_of_mem _ h2)))
        intro s e' he' r2 hr2 hsig
        rw [cacheFind_cons] at he'
        by_cases hs : r.signature = s
        · rw [if_pos hs] at he'
          injection he' with he''
          subst he''
          refine Or.inr ⟨rfl, ?_⟩
          rw [H r2 (List.mem_cons_of_mem _ hr2) r (List.mem_cons_self _ _)
            (hsig.trans hs.symm), hpc]
        · rw [if_neg hs] at he'
          exact hok s e' he' r2 (List.mem_cons_of_mem _ hr2) hsig
      | some pr =>
        obtain ⟨items, rate⟩ := pr
        rw [pureResultRoute, hpc]
        refine congrArg _ (packRun_enabled rs _ ?_ (fun r1 h1 r2 h2 =>
          H r1 (List.mem_cons_of_mem _ h1) r2 (List.mem_cons_of_mem _ h2)))
        intro s e' he' r2 hr2 hsig
        rw [cacheFind_cons] at he'
        by_cases hs : r.signature = s
        · rw [if_pos hs] at he'
          injection he' with he''
          subst he''
          refine Or.inl ⟨rfl, ?_⟩
          rw [H r2 (List.mem_cons_of_mem _ hr2) r (List.mem_cons_self _ _)
            (hsig.trans hs.symm), hpc]
        · rw [if_neg hs] at he'
          exact hok s e' he' r2 (List.mem_cons_of_mem _ hr2) hsig

/-- C7.  For any sequence of `pack` calls in which equal route
signatures entail equal packing outcomes (true in a run, where the type
code determines the vehicle and the node ids determine the items), the
verdicts and written-back routes are identical with the cache enabled
(from empty) and with it disabled, on first and repeated calls. -/
theorem C7_cache_coherence (rs : List Route)
    (H : ∀ r1 ∈ rs, ∀ r2 ∈ rs, r1.signature = r2.signature →
      packCompute r1.vehicle r1.sequence =
        packCompute r2.vehicle r2.sequence) :
    packRun true [] rs = packRun false [] rs := by
  rw [packRun_disabled rs []]
  exact packRun_enabled rs []
    (fun s e he => absurd he (by rw [show cacheFind [] s = none from rfl]; simp))
    H

/-- C7 (witness): packing the same route twice — a cache hit on the
second call — agrees with the cache-free run. -/
theorem C7_witness :
    packRun true [] [⟨vehSmall, [depotN, custN, depotN], [], 0, 0⟩,
        ⟨vehSmall, [depotN, custN, depotN], [], 0, 0⟩] =
      packRun false [] [⟨vehSmall, [depotN, custN, depotN], [], 0, 0⟩,
        ⟨vehSmall, [depotN, custN, depotN], [], 0, 0⟩] :=
  C7_cache_coherence _ (by decide)

/-! ## Claim C5: bonded-customer placement under insertion -/

/-- The bonded route invariant, positionally: a bonded node may sit only
at sequence position 1 (hence also at most one bonded node). -/
def bondedAt1Only (seq : List Node) : Prop :=
  ∀ i, ∀ h : i < seq.length, (seq.get ⟨i, h⟩).is_bonded = true → i = 1

/-- The bonded route invariant, structurally: the head is not bonded and
nothing after position 1 is bonded. -/
def bondedOKAux : List Node → Prop
  | [] => True
  | a :: rest => a.is_bonded = false ∧ ∀ n ∈ rest.drop 1, n.is_bonded = false

/-- The two formulations of the bonded invariant agree. -/
theorem bondedAt1Only_iff (seq : List Node) :
    bondedAt1Only seq ↔ bondedOKAux seq := by
  cases seq with
  | nil =>
    constructor
    · intro _
      trivial
    · intro _ i h
      simp at h
  | cons a rest =>
    constructor
    · intro h
      refine ⟨?_, ?_⟩
      · by_contra hb
        rw [Bool.not_eq_false] at hb
        exact absurd (h 0 (by simp) hb) (by omega)
      · intro n hn
        obtain ⟨⟨j, hj⟩, hget⟩ := List.mem_iff_get.mp hn
        by_contra hb
        rw [Bool.not_eq_false] at hb
        have hj' : j + 1 < rest.length := by
          have := hj
          rw [List.length_drop] at this
          omega
        have hj2 : j + 2 < (a :: rest).length := by
          simp only [List.length_cons]
          omega
        have hg : (a :: rest).get ⟨j + 2, hj2⟩ = n := by
          rw [← hget]
          show rest.get ⟨j + 1, hj'⟩ = (rest.drop 1).get ⟨j, hj⟩
          simp [List.getElem_drop]
        have := h (j + 2) hj2 (by rw [hg]; exact hb)
        omega
    · rintro ⟨ha, hrest⟩ i h hb
      cases i with
      | zero => exact absurd (show a.is_bonded = true from hb) (by simp [ha])
      | succ j =>
        cases j with
        | zero => rfl
        | succ j' =>
          exfalso
          have hlen : j' + 1 < rest.length := by
            simpa using h
          have hdl : j' < (rest.drop 1).length := by
            simp [List.length_drop]
            omega
          have hmem : (a :: rest).get ⟨j' + 2, h⟩ ∈ rest.drop 1 := by
            have heq : (a :: rest).get ⟨j' + 2, h⟩ =
                (rest.drop 1).get ⟨j', hdl⟩ := by
              show rest.get ⟨j' + 1, hlen⟩ = (rest.drop 1).get ⟨j', hdl⟩
              simp [List.getElem_drop]
            rw [heq]
            exact List.get_mem _ _ _
          have := hrest _ hmem
          rw [this] at hb
          exact Bool.noConfusion hb

/-- Inserting behind the head commutes with `cons`. -/
theorem insertAt_cons (a : Node) (rest : List Node) (k : ℕ)
    (node : Node) :
    insertAt (a :: rest) (k + 1) node = a :: insertAt rest k node := by
  simp [insertAt]

/-- An admissible insertion preserves the bonded invariant: a bonded
node goes to index 1 of a bonded-free sequence; a non-bonded node goes
to an index ≥ 1, and to index 1 only when position 1 is not bonded. -/
theorem insert_preserves_bondedOK (seq : List Node) (node : Node) (i : ℕ)
    (hseq : bondedOKAux seq) (hne : seq ≠ [])
    (hcase :
      (node.is_bonded = true ∧ i = 1 ∧ ∀ n ∈ seq, n.is_bonded = false) ∨
      (node.is_bonded = false ∧ 1 ≤ i ∧
        (i = 1 → ∀ h : 1 < seq.length,
          (seq.get ⟨1, h⟩).is_bonded = false))) :
    bondedOKAux (insertAt seq i node) := by
  obtain ⟨a, rest, rfl⟩ := List.exists_cons_of_ne_nil hne
  have hi1 : 1 ≤ i := by
    rcases hcase with ⟨-, rfl, -⟩ | ⟨-, hi, -⟩
    · exact le_rfl
    · exact hi
  obtain ⟨k, rfl⟩ : ∃ k, i = k + 1 := ⟨i - 1, by omega⟩
  rw [insertAt_cons]
  obtain ⟨ha, hrest2⟩ := hseq
  refine ⟨ha, ?_⟩
  intro n hn
  rcases Nat.eq_zero_or_pos k with rfl | hk
  · rw [show insertAt rest 0 node = node :: rest from by simp [insertAt]]
      at hn
    rw [List.drop_one, List.tail_cons] at hn
    rcases hcase with ⟨_, -, hall⟩ | ⟨_, -, h1⟩
    · exact hall n (List.mem_cons_of_mem _ hn)
    · cases rest with
      | nil => exact absurd hn (List.not_mem_nil n)
      | cons b rest' =>
        rcases List.mem_cons.mp hn with rfl | hn'
        · exact h1 rfl (by simp)
        · exact hrest2 n (by simpa using hn')
  · cases rest with
    | nil =>
      rw [show insertAt ([] : List Node) k node = [node] from by
        simp [insertAt]] at hn
      simp at hn
    | cons b rest' =>
      obtain ⟨k', rfl⟩ : ∃ k', k = k' + 1 := ⟨k - 1, by omega⟩
      rw [insertAt_cons, List.drop_one, List.tail_cons] at hn
      rw [insertAt] at hn
      simp only [List.mem_append, List.mem_singleton] at hn
      rcases hn with (hn | rfl) | hn
      · exact hrest2 n (by simpa using List.mem_of_mem_take hn)
      · rcases hcase with ⟨-, hi1', -⟩ | ⟨hb, -, -⟩
        · omega
        · exact hb
      · exact hrest2 n (by simpa using List.mem_of_mem_drop hn)

/-- C5 (amended).  Greedy insertion preserves the bonded invariant
(every bonded customer only at position 1) on all routes — provided
the inserted node, when bonded, enters a solution whose routes contain
no bonded customer.  (Without that proviso the invariant fails: the
admissible index for a bonded node is 1 even when position 1 already
holds a bonded customer, see the counterexample.) -/
theorem C5_greedy_preserves_bonded (fm : FleetManager) (sol : Solution)
    (node : Node)
    (hroutes : ∀ r ∈ sol.routes, bondedAt1Only r.sequence)
    (hne : ∀ r ∈ sol.routes, r.sequence ≠ [])
    (hstart : sol.start_node.is_bonded = false)
    (hend : sol.end_node.is_bonded = false)
    (hbonded : node.is_bonded = true →
      ∀ r ∈ sol.routes, ∀ n ∈ r.sequence, n.is_bonded = false) :
    ∀ r ∈ (insertNodeGreedy fm sol node).routes, bondedAt1Only r.sequence := by
  have hins : ∀ route ∈ sol.routes, ∀ i ∈ admissibleIndices route node,
      ∀ r', find_best_vehicle fm (insertAt route.sequence i node) = some r' →
      bondedAt1Only r'.sequence := by
    intro route hroute i hi r' hfind
    rw [find_best_vehicle] at hfind
    have hseq' : r'.sequence = insertAt route.sequence i node :=
      (findVehicleGo_some _ _ _ r' hfind).1
    rw [bondedAt1Only_iff, hseq']
    refine insert_preserves_bondedOK _ node i
      ((bondedAt1Only_iff _).mp (hroutes route hroute)) (hne route hroute) ?_
    by_cases hb : node.is_bonded = true
    · left
      refine ⟨hb, ?_, fun n hn => hbonded hb route hroute n hn⟩
      rw [admissibleIndices, if_pos hb] at hi
      exact List.mem_singleton.mp hi
    · right
      rw [Bool.not_eq_true] at hb
      rw [admissibleIndices, if_neg (by simp [hb])] at hi
      have hmem := List.mem_range'_1.mp hi
      have hstart1 : 1 ≤ admissibleStart route := by
        rw [admissibleStart]
        by_cases hc : (route.sequence.length > 1 &&
            (((route.sequence.get? 1).map (·.is_bonded)).getD false)) = true
        · rw [if_pos hc]
          omega
        · rw [if_neg hc]
      refine ⟨hb, by omega, ?_⟩
      intro hieq hlen
      by_cases hc : (route.sequence.length > 1 &&
          (((route.sequence.get? 1).map (·.is_bonded)).getD false)) = true
      · exfalso
        rw [admissibleStart, if_pos hc] at hmem
        omega
      · rw [Bool.and_eq_true, decide_eq_true_iff] at hc
        push_neg at hc
        have hb1 := hc hlen
        rw [List.get?_eq_get hlen] at hb1
        simpa using hb1
  have hnew : ∀ r',
      find_best_vehicle fm [sol.start_node, node, sol.end_node] = some r' →
      bondedAt1Only r'.sequence := by
    intro r' hfind
    rw [find_best_vehicle] at hfind
    have hseq' := (findVehicleGo_some _ _ _ r' hfind).1
    rw [bondedAt1Only_iff, hseq']
    refine ⟨hstart, ?_⟩
    intro n hn
    simp only [List.drop_one, List.tail_cons, List.tail] at hn
    rcases List.mem_singleton.mp (by simpa using hn) with rfl
    exact hend
  have hscan : ∀ c ri r', greedyScanRoutes fm sol node = some (c, ri, r') →
      bondedAt1Only r'.sequence := by
    rw [greedyScanRoutes]
    refine @foldl_pres _ _
      (fun b => ∀ (c : ℚ) (ri : ℤ) (r' : Route), b = some (c, ri, r') →
        bondedAt1Only r'.sequence) _ _ _ ?_
      (fun c ri r' h => Option.noConfusion h)
    intro b rir hrir hPb
    have hroute : rir.2 ∈ sol.routes := by
      have hmap := List.enum_map_snd sol.routes
      rw [← hmap]
      exact List.mem_map_of_mem Prod.snd hrir
    by_cases hcap : ¬ checkCapacityFeasible fm rir.2 node = true
    · rw [if_pos hcap]
      exact hPb
    · rw [if_neg hcap]
      refine @foldl_pres _ _
        (fun b => ∀ (c : ℚ) (ri : ℤ) (r' : Route), b = some (c, ri, r') →
          bondedAt1Only r'.sequence) _ _ _ ?_ hPb
      intro b' i hi hPb' c ri r' h
      revert h
      cases hfind : find_best_vehicle fm (insertAt rir.2.sequence i node) with
      | none => exact hPb' c ri r'
      | some newRoute =>
        intro h
        have h' : (if ((weightedCost newRoute - weightedCost rir.2 : ℚ) :
            WithTop ℚ) < bestCost b' then
              some (weightedCost newRoute - weightedCost rir.2,
                (rir.1 : ℤ), newRoute)
            else b') = some (c, ri, r') := h
        by_cases hlt : ((weightedCost newRoute - weightedCost rir.2 : ℚ) :
            WithTop ℚ) < bestCost b'
        · rw [if_pos hlt] at h'
          injection h' with h1
          injection h1 with ha hb
          injection hb with hb1 hb2
          subst hb2
          exact hins rir.2 hroute i hi newRoute hfind
        · rw [if_neg hlt] at h'
          exact hPb' c ri r' h'
  have hbest : ∀ c ri r', greedyBest fm sol node = some (c, ri, r') →
      bondedAt1Only r'.sequence := by
    intro c ri r' h
    rw [greedyBest] at h
    revert h
    cases hf : find_best_vehicle fm [sol.start_node, node, sol.end_node] with
    | none => exact hscan c ri r'
    | some nr =>
      intro h
      have h' : (if ((weightedCost nr : ℚ) : WithTop ℚ) <
          bestCost (greedyScanRoutes fm sol node) then
            some (weightedCost nr, (-1 : ℤ), nr)
          else greedyScanRoutes fm sol node) = some (c, ri, r') := h
      by_cases hlt : ((weightedCost nr : ℚ) : WithTop ℚ) <
          bestCost (greedyScanRoutes fm sol node)
      · rw [if_pos hlt] at h'
        injection h' with h1
        injection h1 with ha hb
        injection hb with hb1 hb2
        subst hb2
        exact hnew nr hf
      · rw [if_neg hlt] at h'
        exact hscan c ri r' h'
  intro r hr
  rw [show insertNodeGreedy fm sol node =
      (match greedyBest fm sol node with
        | none => sol
        | some (_, ri, resRoute) =>
          if ri = -1 then { sol with routes := sol.routes ++ [resRoute] }
          else { sol with routes := sol.routes.set ri.toNat resRoute })
      from rfl] at hr
  generalize hbb : greedyBest fm sol node = gb at hr
  cases gb with
  | none => exact hroutes r hr
  | some t =>
    obtain ⟨c, ri, resR⟩ := t
    have hres : bondedAt1Only resR.sequence := hbest c ri resR hbb
    have hr' : r ∈ (if ri = -1 then
        { sol with routes := sol.routes ++ [resR] }
      else { sol with routes := sol.routes.set ri.toNat resR }).routes := hr
    by_cases hri : ri = -1
    · rw [if_pos hri] at hr'
      have hr2 : r ∈ sol.routes ++ [resR] := hr'
      rcases List.mem_append.mp hr2 with hold | hnew'
      · exact hroutes r hold
      · rcases List.mem_singleton.mp hnew' with rfl
        exact hres
    · rw [if_neg hri] at hr'
      have hr2 : r ∈ sol.routes.set ri.toNat resR := hr'
      rcases List.mem_or_eq_of_mem_set hr2 with hold | rfl
      · exact hroutes r hold
      · exact hres

/-- Fleet with one small vehicle and an all-zero distance matrix, for the
C5 counterexample. -/
def fmC5 : FleetManager := ⟨[vehSmall], fun _ _ => 0⟩

/-- A bonded customer already sitting at position 1 of the existing route. -/
def b1C5 : Node := ⟨1, true, 0, 0, [itmW]⟩

/-- The item carried by the second bonded customer. -/
def itm2C : Item := ⟨"i2", 1, 1, 1, 1⟩

/-- A second bonded customer, to be inserted greedily. -/
def b2C5 : Node := ⟨2, true, 0, 0, [itm2C]⟩

/-- The route `find_best_vehicle` builds for `[depot, b1, depot]`. -/
def r1C5 : Route := ⟨vehSmall, [depotN, b1C5, depotN], [⟨itmW, 0, 0, 0, 1, 1, 1⟩], 0, 1/1000⟩

/-- A solution holding one route whose bonded customer sits at position 1,
so the bonded invariant holds at entry. -/
def solC5 : Solution := ⟨depotN, depotN, [r1C5]⟩

/-- C5, counterexample to the unconditional invariant: starting from a
solution whose single route satisfies the bonded invariant (and is itself
the route `find_best_vehicle` produces for its sequence), greedily
inserting a second bonded customer yields the route `[0, 2, 1, 0]` in
which the first bonded customer has been pushed to position 2 — the
admissible index for a bonded node is 1 even when position 1 already
holds a bonded customer, so the invariant is not preserved. -/
theorem C5_counterexample :
    solC5.routes.all routeBondedOK = true ∧
    b2C5.is_bonded = true ∧
    find_best_vehicle fmC5 [depotN, b1C5, depotN] = some r1C5 ∧
    ((insertNodeGreedy fmC5 solC5 b2C5).routes.map fun r =>
      r.sequence.map (·.id)) = [[0, 2, 1, 0]] ∧
    ((insertNodeGreedy fmC5 solC5 b2C5).routes.get? 0).map
      (fun r => (r.sequence.get? 2).map (·.is_bonded)) = some (some true) ∧
    (insertNodeGreedy fmC5 solC5 b2C5).routes.all routeBondedOK = false := by
  decide

/-- Fleet with one small vehicle and an all-zero distance matrix, for the
C5 witness. -/
def fmW5 : FleetManager := ⟨[vehSmall], fun _ _ => 0⟩

/-- A non-bonded customer, to be inserted greedily into `solOne`. -/
def custN2 : Node := ⟨2, false, 0, 0, [itm2C]⟩

/-- The route produced by greedily inserting `custN2` into `solOne`. -/
def rw5 : Route :=
  ⟨vehSmall, [depotN, custN2, custN, depotN],
   [⟨itm2C, 0, 0, 0, 1, 1, 1⟩, ⟨itmW, 0, 1, 0, 1, 1, 1⟩], 0, 1/500⟩

/-- Witness for C5: greedily inserting the non-bonded `custN2` into
`solOne` (whose single route satisfies the bonded invariant) yields the
route `[depot, custN2, custN, depot]`, and the preservation theorem shows
its sequence satisfies the bonded invariant. -/
theorem C5_witness : bondedAt1Only [depotN, custN2, custN, depotN] := by
  have h := C5_greedy_preserves_bonded fmW5 solOne custN2
    (by
      intro r hr
      rcases List.mem_singleton.mp hr with rfl
      rw [bondedAt1Only_iff]
      refine ⟨rfl, ?_⟩
      intro n hn
      simp only [List.drop_succ_cons, List.drop_zero, List.mem_singleton] at hn
      subst hn
      rfl)
    (by
      intro r hr
      rcases List.mem_singleton.mp hr with rfl
      decide)
    rfl rfl
    (fun hb => absurd hb (by decide))
  have hm : rw5 ∈ (insertNodeGreedy fmW5 solOne custN2).routes := by decide
  exact h rw5 hm

end CVRP3L
